import Mathlib

/-!
Verification of the wire-format layer of the vpncloud repository:
the tagged-field control-message codec (src/messages.rs, NodeInfo) and the
payload dissector (src/payload.rs, Frame and Packet).

Bytes are modelled as natural numbers; byte sequences as lists.  Rust readers
are modelled by explicit state passing: the plain reader is the list of
remaining bytes, and a Take (the bounded sub-reader produced by r.take(n))
is a pair of the remaining read limit and the remaining underlying bytes.
Loops of the source become fuel-indexed structural recursions; every entry
point instantiates the fuel with a provably sufficient value, so the fuel is
an implementation artifact only.
-/

/-- Byte values; the source works with u8, modelled as Nat. -/
abbrev Byte := Nat

/-- Error values of the repository, as used by messages.rs and payload.rs:
the Message and Parse variants of the crate-wide Error enum, each carrying a
static reason string. -/
inductive Error where
  | Message (s : String)
  | Parse (s : String)
deriving DecidableEq, Repr

/-- Model of std::io::Take: a bounded view of a byte source, as produced by
r.take(limit).  The field data is the remaining bytes of the underlying
reader; reads fail once either the limit or the underlying bytes run out.
Calling into_inner corresponds to keeping the data field (the limit is
dropped, and unconsumed bytes within the limit stay in the stream). -/
structure Take where
  limit : Nat
  data : List Byte
deriving DecidableEq, Repr

/-- Reading one byte from a Take: models ReadBytesExt::read_u8 on a Take,
which fails (UnexpectedEof) when the limit is zero or the source is empty. -/
def Take.readU8 (t : Take) : Option (Byte × Take) :=
  if t.limit = 0 then none
  else
    match t.data with
    | [] => none
    | b :: rest => some (b, ⟨t.limit - 1, rest⟩)

/-- Reading n bytes from a Take: models Read::read_exact into an n-byte
buffer. -/
def Take.readBytes : Take → Nat → Option (List Byte × Take)
  | t, 0 => some ([], t)
  | t, n + 1 => do
    let (b, t) ← t.readU8
    let (bs, t) ← t.readBytes n
    pure (b :: bs, t)

/-- Reading a big-endian u16 from a Take: models read_u16::<NetworkEndian>. -/
def Take.readU16 (t : Take) : Option (Nat × Take) := do
  let (hi, t) ← t.readU8
  let (lo, t) ← t.readU8
  pure (hi * 256 + lo, t)

/-- Big-endian serialization of a 16-bit value, with the same wrapping as
writing (v as u16) through write_u16::<NetworkEndian>. -/
def write_u16 (v : Nat) : List Byte :=
  [v % 65536 / 256, v % 256]

/-- Modelled from the spec: the fixed length of a node identifier
(NODE_ID_BYTES comes from types.rs, which is not under src/).  The spec says
only that the identifier is a fixed-length opaque byte string; the concrete
value 16 matches the decoder reading a fixed number of bytes and is
irrelevant to every claim. -/
def NODE_ID_BYTES : Nat := 16

/-- Socket addresses as carried in peer lists: an IPv4 or IPv6 address
(given by its octets) with a port.  The wire format stores exactly the
octets and the port; the flowinfo and scope fields of SocketAddrV6 are fixed
to zero by the decoder and are not modelled. -/
inductive SocketAddr where
  | v4 (ip : List Byte) (port : Nat)
  | v6 (ip : List Byte) (port : Nat)
deriving DecidableEq, Repr

/-- Tests whether an address is IPv4 (matches the SocketAddr::V4 arm). -/
def SocketAddr.isV4 : SocketAddr → Bool
  | .v4 _ _ => true
  | .v6 _ _ => false

/-- Tests whether an address is IPv6 (matches the SocketAddr::V6 arm). -/
def SocketAddr.isV6 : SocketAddr → Bool
  | .v4 _ _ => false
  | .v6 _ _ => true

/-- One known peer: optional node identifier and ordered address list
(struct PeerInfo of messages.rs). -/
structure PeerInfo where
  node_id : Option (List Byte)
  addrs : List SocketAddr
deriving DecidableEq, Repr

/-- Modelled from the spec: a claimed address range (struct Range of
types.rs, which is not under src/).  The spec treats it as an opaque value
whose serialization is a self-delimiting record and whose reader fails on
truncated or malformed input with its own distinct parse error.  We model
the record as a length byte (a length above 16 is malformed), that many
address bytes, and a prefix-length byte. -/
structure Range where
  addr : List Byte
  prefix_len : Nat
deriving DecidableEq, Repr

/-- Modelled from the spec: Range serialization (write side); appends the
self-delimiting record of one range. -/
def Range.write_to (r : Range) : List Byte :=
  r.addr.length :: (r.addr ++ [r.prefix_len])

/-- Modelled from the spec: Range deserialization (read side); consumes
exactly one record from the bounded region and fails on truncation or on a
malformed record with a distinct parse error (not the generic truncation
message of the container format). -/
def Range.read_from (t : Take) : Except Error (Range × Take) :=
  match t.readU8 with
  | none => .error (.Parse "Address too short")
  | some (len, t) =>
    if 16 < len then .error (.Parse "Invalid address length")
    else
      match t.readBytes len with
      | none => .error (.Parse "Address too short")
      | some (addr, t) =>
        match t.readU8 with
        | none => .error (.Parse "Address too short")
        | some (pl, t) => .ok (⟨addr, pl⟩, t)

/-- The decoded control message (struct NodeInfo of messages.rs). -/
structure NodeInfo where
  peers : List PeerInfo
  claims : List Range
  peer_timeout : Option Nat
deriving DecidableEq, Repr

namespace NodeInfo

/-- Reading a counted run of IPv6 socket addresses: models the first inner
loop of decode_peer_list_part (16 address bytes plus a big-endian port per
entry, flowinfo and scope set to zero). -/
def read_ipv6_addrs : Nat → Take → Option (List SocketAddr × Take)
  | 0, t => some ([], t)
  | n + 1, t => do
    let (ip, t) ← t.readBytes 16
    let (port, t) ← t.readU16
    let (rest, t) ← read_ipv6_addrs n t
    pure (SocketAddr.v6 ip port :: rest, t)

/-- Reading a counted run of IPv4 socket addresses: models the second inner
loop of decode_peer_list_part (4 address bytes plus a big-endian port per
entry). -/
def read_ipv4_addrs : Nat → Take → Option (List SocketAddr × Take)
  | 0, t => some ([], t)
  | n + 1, t => do
    let (ip, t) ← t.readBytes 4
    let (port, t) ← t.readU16
    let (rest, t) ← read_ipv4_addrs n t
    pure (SocketAddr.v4 ip port :: rest, t)

/-- Reading the optional node identifier of one peer: the body of the
if has_node_id block of decode_peer_list_part. -/
def read_node_id (flags : Byte) (t : Take) : Option (Option (List Byte) × Take) :=
  if Nat.land flags 0x80 ≠ 0 then
    match t.readBytes NODE_ID_BYTES with
    | none => none
    | some (id, t) => some (some id, t)
  else some (none, t)

/-- Models NodeInfo::decode_peer_list_part: while the bounded region is not
exhausted, read a flags byte (bit 7: node id present; bits 0-2: IPv4 count;
bits 3-5: IPv6 count), the optional node id, the IPv6 entries and then the
IPv4 entries, and append the peer.  The fuel bounds the number of loop
iterations; since every iteration consumes at least one byte of the limit,
any fuel of at least limit + 1 is sufficient and the callers pass such. -/
def decode_peer_list_part : Nat → Take → Option (List PeerInfo × Take)
  | 0, t => if t.limit = 0 then some ([], t) else none
  | fuel + 1, t =>
    if t.limit = 0 then some ([], t)
    else do
      let (flags, t) ← t.readU8
      let (node_id, t) ← read_node_id flags t
      let (a6, t) ← read_ipv6_addrs (Nat.land flags 0x38 / 8) t
      let (a4, t) ← read_ipv4_addrs (Nat.land flags 0x07) t
      let (ps, t) ← decode_peer_list_part fuel t
      pure (⟨node_id, a6 ++ a4⟩ :: ps, t)

/-- Models NodeInfo::decode_claims_part: read range records back to back
until the bounded region is exhausted, propagating the range reader's error
unchanged.  Fuel as in decode_peer_list_part. -/
def decode_claims_part : Nat → Take → Except Error (List Range × Take)
  | 0, t => if t.limit = 0 then .ok ([], t) else .error (.Message "Truncated message")
  | fuel + 1, t =>
    if t.limit = 0 then .ok ([], t)
    else
      match Range.read_from t with
      | .error e => .error e
      | .ok (c, t') =>
        match decode_claims_part fuel t' with
        | .error e => .error e
        | .ok (cs, t'') => .ok (c :: cs, t'')

/-- Models the loop of NodeInfo::decode_internal: read a part tag; stop on
the terminator tag 0; otherwise read the big-endian part length, build the
bounded sub-reader, dispatch on the tag (1 peers, 2 claims, 3 peer timeout,
anything else: read and discard exactly part_len bytes), then continue on
the bytes left by the sub-reader (into_inner keeps the underlying reader at
its current position; unconsumed bytes of the bounded region are not
skipped).  The accumulator arguments are the mutable locals peers, claims
and peer_timeout; a later part with the same tag overwrites them.  Outer
fuel bounds the loop iterations; every iteration consumes at least the tag
byte, so input.length + 1 is always sufficient. -/
def decode_internal_go :
    Nat → List Byte → List PeerInfo → List Range → Option Nat → Except Error NodeInfo
  | 0, _, _, _, _ => .error (.Message "Truncated message")
  | fuel + 1, input, peers, claims, peer_timeout =>
    match input with
    | [] => .error (.Message "Truncated message")
    | part :: r =>
      if part = 0 then .ok ⟨peers, claims, peer_timeout⟩
      else
        match r with
        | hi :: lo :: r =>
          let part_len := hi * 256 + lo
          let rp : Take := ⟨part_len, r⟩
          if part = 1 then
            match decode_peer_list_part (part_len + 1) rp with
            | none => .error (.Message "Truncated message")
            | some (ps, t) => decode_internal_go fuel t.data ps claims peer_timeout
          else if part = 2 then
            match decode_claims_part (part_len + 1) rp with
            | .error e => .error e
            | .ok (cs, t) => decode_internal_go fuel t.data peers cs peer_timeout
          else if part = 3 then
            match rp.readU16 with
            | none => .error (.Message "Truncated message")
            | some (v, t) => decode_internal_go fuel t.data peers claims (some v)
          else
            match rp.readBytes part_len with
            | none => .error (.Message "Truncated message")
            | some (_, t) => decode_internal_go fuel t.data peers claims peer_timeout
        | _ => .error (.Message "Truncated message")

/-- Models NodeInfo::decode_internal applied to a byte sequence. -/
def decode_internal (input : List Byte) : Except Error NodeInfo :=
  decode_internal_go (input.length + 1) input [] [] none

/-- Models NodeInfo::decode: decode_internal with every error replaced by
the generic input-too-short message (map_err at messages.rs line 119). -/
def decode (input : List Byte) : Except Error NodeInfo :=
  match decode_internal input with
  | .ok x => .ok x
  | .error _ => .error (.Message "Input data too short")

/-- Serialization of one socket address inside a peer list: the address
octets followed by the big-endian port, as written by the two encode loops. -/
def encodeSocketAddr : SocketAddr → List Byte
  | .v4 ip port => ip ++ write_u16 port
  | .v6 ip port => ip ++ write_u16 port

/-- Models the per-peer body of NodeInfo::encode_peer_list_part: split the
address list into IPv4 and IPv6 sublists preserving order, drop entries
from the tail of either family until at most 7 remain, write the flags
byte, the optional node id, all IPv6 entries and then all IPv4 entries. -/
def encode_peer (p : PeerInfo) : List Byte :=
  let addr_ipv4 := (p.addrs.filter SocketAddr.isV4).take 7
  let addr_ipv6 := (p.addrs.filter SocketAddr.isV6).take 7
  let flags := addr_ipv6.length * 8 + addr_ipv4.length +
    (if p.node_id.isSome then 128 else 0)
  flags ::
    ((match p.node_id with | some id => id | none => []) ++
      (addr_ipv6.flatMap encodeSocketAddr ++ addr_ipv4.flatMap encodeSocketAddr))

/-- Models NodeInfo::encode_peer_list_part: the peer bodies in list order. -/
def encode_peer_list_part (peers : List PeerInfo) : List Byte :=
  peers.flatMap encode_peer

/-- The claims part body: every range record in list order (the closure
passed to encode_part for PART_CLAIMS). -/
def encode_claims_part (claims : List Range) : List Byte :=
  claims.flatMap Range.write_to

/-- One encoded part: tag byte, big-endian length (written as u16, hence
wrapping modulo 65536 exactly like the patch-back write in encode_part),
then the body. -/
def encodePart (tag : Byte) (body : List Byte) : List Byte :=
  tag :: (write_u16 body.length ++ body)

/-- Models NodeInfo::encode / encode_internal writing into a sufficiently
large buffer: the peers part, the claims part, the peer-timeout part when
present, then the terminator tag.  The seek-and-patch-back technique of
encode_part only serves to produce the length prefix and is collapsed into
encodePart; buffer-capacity overflow (a panic in the source) is outside the
model, which corresponds to the caller sizing the buffer correctly. -/
def encode (x : NodeInfo) : List Byte :=
  encodePart 1 (encode_peer_list_part x.peers) ++
    (encodePart 2 (encode_claims_part x.claims) ++
      ((match x.peer_timeout with
        | some t => encodePart 3 (write_u16 t)
        | none => []) ++ [0]))

end NodeInfo

/-- The Address value type of types.rs as used and tested throughout
payload.rs: a fixed 16-byte buffer together with the semantic length. -/
structure Address where
  data : List Byte
  len : Nat
deriving DecidableEq, Repr

/-- Modelled from the spec: Address::read_from_fixed (types.rs is not under
src/): copy len bytes from the start of the slice into the zero-padded
16-byte buffer, failing when the requested length exceeds 16 or the slice
is shorter than len. -/
def Address.read_from_fixed (slice : List Byte) (len : Nat) : Except Error Address :=
  if 16 < len then .error (.Parse "Invalid address length")
  else if slice.length < len then .error (.Parse "Address too short")
  else .ok ⟨slice.take len ++ List.replicate (16 - len) 0, len⟩

namespace Frame

/-- Models Frame::parse of payload.rs: extract (source, destination) from an
ethernet frame, folding a single VLAN tag into both addresses. -/
def parse (data : List Byte) : Except Error (Address × Address) :=
  if data.length < 14 then .error (.Parse "Frame is too short")
  else
    let dst_data := data.take 6
    let src_data := (data.drop 6).take 6
    if data.getD 12 0 = 0x81 ∧ data.getD 13 0 = 0x00 then
      if data.length < 16 then .error (.Parse "Vlan frame is too short")
      else
        let src := Address.mk
          (data.getD 14 0 :: data.getD 15 0 :: (src_data ++ List.replicate 8 0)) 8
        let dst := Address.mk
          (data.getD 14 0 :: data.getD 15 0 :: (dst_data ++ List.replicate 8 0)) 8
        .ok (src, dst)
    else
      match Address.read_from_fixed src_data 6 with
      | .error e => .error e
      | .ok src =>
        match Address.read_from_fixed dst_data 6 with
        | .error e => .error e
        | .ok dst => .ok (src, dst)

end Frame

namespace Packet

/-- Models Packet::parse of payload.rs: dispatch on the version nibble of
the first byte and extract (source, destination) from an IPv4 or IPv6
header. -/
def parse (data : List Byte) : Except Error (Address × Address) :=
  if data.length = 0 then .error (.Parse "Empty header")
  else
    let version := data.getD 0 0 / 16
    if version = 4 then
      if data.length < 20 then .error (.Parse "Truncated IPv4 header")
      else
        match Address.read_from_fixed (data.drop 12) 4 with
        | .error e => .error e
        | .ok src =>
          match Address.read_from_fixed (data.drop 16) 4 with
          | .error e => .error e
          | .ok dst => .ok (src, dst)
    else if version = 6 then
      if data.length < 40 then .error (.Parse "Truncated IPv6 header")
      else
        match Address.read_from_fixed (data.drop 8) 16 with
        | .error e => .error e
        | .ok src =>
          match Address.read_from_fixed (data.drop 24) 16 with
          | .error e => .error e
          | .ok dst => .ok (src, dst)
    else .error (.Parse "Invalid IP protocol version")

end Packet

deriving instance DecidableEq for Except

section ReaderLemmas

/-- Reading one byte from a nonempty bounded region with positive limit. -/
theorem Take.readU8_cons (M : Nat) (b : Byte) (rest : List Byte) :
    Take.readU8 ⟨M + 1, b :: rest⟩ = some (b, ⟨M, rest⟩) := by
  simp [Take.readU8]

/-- Reading exactly the bytes of a leading block from a bounded region. -/
theorem Take.readBytes_exact (xs : List Byte) (M : Nat) (rest : List Byte) :
    Take.readBytes ⟨xs.length + M, xs ++ rest⟩ xs.length = some (xs, ⟨M, rest⟩) := by
  induction xs generalizing M with
  | nil => simp [Take.readBytes]
  | cons x xs ih =>
    simp only [List.length_cons, List.cons_append]
    rw [show xs.length + 1 + M = (xs.length + M) + 1 by omega]
    simp [Take.readBytes, Take.readU8_cons, ih]

/-- Reading a big-endian u16 from a bounded region holding at least two
bytes. -/
theorem Take.readU16_cons (M a b : Nat) (rest : List Byte) :
    Take.readU16 ⟨M + 2, a :: b :: rest⟩ = some (a * 256 + b, ⟨M, rest⟩) := by
  have h : M + 2 = (M + 1) + 1 := rfl
  rw [h]
  simp [Take.readU16, Take.readU8_cons]

/-- A successful single-byte read consumes one unit of limit and one byte of
data. -/
theorem Take.readU8_spec {t t' : Take} {b : Byte} (h : t.readU8 = some (b, t')) :
    t.limit = t'.limit + 1 ∧ t.data.length = t'.data.length + 1 := by
  obtain ⟨L, d⟩ := t
  by_cases h0 : L = 0
  · simp [Take.readU8, h0] at h
  · cases d with
    | nil => simp [Take.readU8, h0] at h
    | cons x xs =>
      simp [Take.readU8, h0] at h
      obtain ⟨-, ht⟩ := h
      subst ht
      constructor
      · simp; omega
      · simp

/-- A successful n-byte read consumes n units of limit and n bytes of
data. -/
theorem Take.readBytes_spec {n : Nat} :
    ∀ {t t' : Take} {bs : List Byte}, t.readBytes n = some (bs, t') →
      t.limit = t'.limit + n ∧ t.data.length = t'.data.length + n := by
  induction n with
  | zero =>
    intro t t' bs h
    simp [Take.readBytes] at h
    obtain ⟨-, ht⟩ := h
    subst ht
    omega
  | succ n ih =>
    intro t t' bs h
    simp only [Take.readBytes, Option.bind_eq_bind, Option.bind_eq_some] at h
    obtain ⟨⟨b, t1⟩, h1, h2⟩ := h
    obtain ⟨⟨bs1, t2⟩, h3, h4⟩ := h2
    simp only [Option.pure_def, Option.some_inj, Prod.mk.injEq] at h4
    obtain ⟨-, ht⟩ := h4
    subst ht
    have h3' : t1.readBytes n = some (bs1, t2) := h3
    have s1 := Take.readU8_spec h1
    have s2 := ih h3'
    omega

/-- A successful u16 read consumes two units of limit and two bytes of
data. -/
theorem Take.readU16_spec {t t' : Take} {v : Nat} (h : t.readU16 = some (v, t')) :
    t.limit = t'.limit + 2 ∧ t.data.length = t'.data.length + 2 := by
  simp only [Take.readU16, Option.bind_eq_bind, Option.bind_eq_some] at h
  obtain ⟨⟨a, t1⟩, h1, h2⟩ := h
  obtain ⟨⟨b, t2⟩, h3, h4⟩ := h2
  simp only [Option.pure_def, Option.some_inj, Prod.mk.injEq] at h4
  obtain ⟨-, ht⟩ := h4
  subst ht
  have h3' : t1.readU8 = some (b, t2) := h3
  have s1 := Take.readU8_spec h1
  have s2 := Take.readU8_spec h3'
  omega

/-- A successful run of IPv6 address reads consumes as much limit as
data. -/
theorem NodeInfo.read_ipv6_addrs_spec {n : Nat} :
    ∀ {t t' : Take} {l : List SocketAddr}, NodeInfo.read_ipv6_addrs n t = some (l, t') →
      ∃ k, t.limit = t'.limit + k ∧ t.data.length = t'.data.length + k := by
  induction n with
  | zero =>
    intro t t' l h
    simp [NodeInfo.read_ipv6_addrs] at h
    obtain ⟨-, ht⟩ := h
    subst ht
    exact ⟨0, rfl, rfl⟩
  | succ n ih =>
    intro t t' l h
    simp only [NodeInfo.read_ipv6_addrs, Option.bind_eq_bind, Option.bind_eq_some] at h
    obtain ⟨⟨ip, t1⟩, h1, h2⟩ := h
    obtain ⟨⟨port, t2⟩, h3, h4⟩ := h2
    obtain ⟨⟨rest, t3⟩, h5, h6⟩ := h4
    simp only [Option.pure_def, Option.some_inj, Prod.mk.injEq] at h6
    obtain ⟨-, ht⟩ := h6
    subst ht
    have h3' : t1.readU16 = some (port, t2) := h3
    have h5' : NodeInfo.read_ipv6_addrs n t2 = some (rest, t3) := h5
    have s1 := Take.readBytes_spec h1
    have s2 := Take.readU16_spec h3'
    obtain ⟨k, s3⟩ := ih h5'
    exact ⟨16 + 2 + k, by omega, by omega⟩

/-- A successful run of IPv4 address reads consumes as much limit as
data. -/
theorem NodeInfo.read_ipv4_addrs_spec {n : Nat} :
    ∀ {t t' : Take} {l : List SocketAddr}, NodeInfo.read_ipv4_addrs n t = some (l, t') →
      ∃ k, t.limit = t'.limit + k ∧ t.data.length = t'.data.length + k := by
  induction n with
  | zero =>
    intro t t' l h
    simp [NodeInfo.read_ipv4_addrs] at h
    obtain ⟨-, ht⟩ := h
    subst ht
    exact ⟨0, rfl, rfl⟩
  | succ n ih =>
    intro t t' l h
    simp only [NodeInfo.read_ipv4_addrs, Option.bind_eq_bind, Option.bind_eq_some] at h
    obtain ⟨⟨ip, t1⟩, h1, h2⟩ := h
    obtain ⟨⟨port, t2⟩, h3, h4⟩ := h2
    obtain ⟨⟨rest, t3⟩, h5, h6⟩ := h4
    simp only [Option.pure_def, Option.some_inj, Prod.mk.injEq] at h6
    obtain ⟨-, ht⟩ := h6
    subst ht
    have h3' : t1.readU16 = some (port, t2) := h3
    have h5' : NodeInfo.read_ipv4_addrs n t2 = some (rest, t3) := h5
    have s1 := Take.readBytes_spec h1
    have s2 := Take.readU16_spec h3'
    obtain ⟨k, s3⟩ := ih h5'
    exact ⟨4 + 2 + k, by omega, by omega⟩

/-- A successful range-record read consumes as much limit as data. -/
theorem Range.read_from_spec {t t' : Take} {c : Range} (h : Range.read_from t = .ok (c, t')) :
    ∃ k, 0 < k ∧ t.limit = t'.limit + k ∧ t.data.length = t'.data.length + k := by
  unfold Range.read_from at h
  cases h1 : t.readU8 with
  | none => simp [h1] at h
  | some v =>
    obtain ⟨len, t1⟩ := v
    simp only [h1] at h
    by_cases h16 : 16 < len
    · simp [h16] at h
    · simp only [h16, if_false] at h
      cases h2 : t1.readBytes len with
      | none => simp [h2] at h
      | some w =>
        obtain ⟨addr, t2⟩ := w
        simp only [h2] at h
        cases h3 : t2.readU8 with
        | none => simp [h3] at h
        | some u =>
          obtain ⟨pl, t3⟩ := u
          simp only [h3] at h
          simp only [Except.ok.injEq, Prod.mk.injEq] at h
          obtain ⟨-, ht⟩ := h
          subst ht
          have s1 := Take.readU8_spec h1
          have s2 := Take.readBytes_spec h2
          have s3 := Take.readU8_spec h3
          exact ⟨1 + len + 1, by omega, by omega, by omega⟩

end ReaderLemmas

section ParserSpecs

/-- A successful node-id read consumes as much limit as data. -/
theorem NodeInfo.read_node_id_spec {flags : Byte} {t t' : Take} {v : Option (List Byte)}
    (h : NodeInfo.read_node_id flags t = some (v, t')) :
    ∃ k, t.limit = t'.limit + k ∧ t.data.length = t'.data.length + k := by
  unfold NodeInfo.read_node_id at h
  by_cases hb : Nat.land flags 0x80 ≠ 0
  · rw [if_pos hb] at h
    cases h2 : t.readBytes NODE_ID_BYTES with
    | none => simp [h2] at h
    | some w =>
      obtain ⟨id, t2⟩ := w
      simp only [h2, Option.some_inj, Prod.mk.injEq] at h
      obtain ⟨-, ht⟩ := h
      subst ht
      have := Take.readBytes_spec h2
      exact ⟨NODE_ID_BYTES, this.1, this.2⟩
  · rw [if_neg hb] at h
    simp only [Option.some_inj, Prod.mk.injEq] at h
    obtain ⟨-, ht⟩ := h
    subst ht
    exact ⟨0, rfl, rfl⟩

/-- A successful peer-list parse ends with the bounded region exhausted,
having consumed exactly limit bytes of the underlying data. -/
theorem NodeInfo.decode_peer_list_part_spec {fuel : Nat} :
    ∀ {t t' : Take} {ps : List PeerInfo},
      NodeInfo.decode_peer_list_part fuel t = some (ps, t') →
      t'.limit = 0 ∧ t.data.length = t'.data.length + t.limit := by
  induction fuel with
  | zero =>
    intro t t' ps h
    simp only [NodeInfo.decode_peer_list_part] at h
    by_cases hl : t.limit = 0
    · simp only [hl, if_true, Option.some_inj, Prod.mk.injEq] at h
      obtain ⟨-, ht⟩ := h
      subst ht
      omega
    · simp [hl] at h
  | succ fuel ih =>
    intro t t' ps h
    simp only [NodeInfo.decode_peer_list_part] at h
    by_cases hl : t.limit = 0
    · simp only [hl, if_true, Option.some_inj, Prod.mk.injEq] at h
      obtain ⟨-, ht⟩ := h
      subst ht
      omega
    · simp only [hl, if_false, Option.bind_eq_bind, Option.bind_eq_some] at h
      obtain ⟨⟨flags, t1⟩, h1, h2⟩ := h
      obtain ⟨⟨node_id, t2⟩, h3, h4⟩ := h2
      obtain ⟨⟨a6, t3⟩, h5, h6⟩ := h4
      obtain ⟨⟨a4, t4⟩, h7, h8⟩ := h6
      obtain ⟨⟨ps5, t5⟩, h9, h10⟩ := h8
      simp only [Option.pure_def, Option.some_inj, Prod.mk.injEq] at h10
      obtain ⟨-, ht⟩ := h10
      subst ht
      have h3' : NodeInfo.read_node_id flags t1 = some (node_id, t2) := h3
      have h5' : NodeInfo.read_ipv6_addrs (Nat.land flags 0x38 / 8) t2 = some (a6, t3) := h5
      have h7' : NodeInfo.read_ipv4_addrs (Nat.land flags 0x07) t3 = some (a4, t4) := h7
      have h9' : NodeInfo.decode_peer_list_part fuel t4 = some (ps5, t5) := h9
      have s1 := Take.readU8_spec h1
      obtain ⟨ki, hid1, hid2⟩ := NodeInfo.read_node_id_spec h3'
      obtain ⟨k6, s6a, s6b⟩ := NodeInfo.read_ipv6_addrs_spec h5'
      obtain ⟨k4, s4a, s4b⟩ := NodeInfo.read_ipv4_addrs_spec h7'
      have s5 := ih h9'
      exact ⟨s5.1, by omega⟩

/-- A successful claims parse ends with the bounded region exhausted, having
consumed exactly limit bytes of the underlying data. -/
theorem NodeInfo.decode_claims_part_spec {fuel : Nat} :
    ∀ {t t' : Take} {cs : List Range},
      NodeInfo.decode_claims_part fuel t = .ok (cs, t') →
      t'.limit = 0 ∧ t.data.length = t'.data.length + t.limit := by
  induction fuel with
  | zero =>
    intro t t' cs h
    simp only [NodeInfo.decode_claims_part] at h
    by_cases hl : t.limit = 0
    · simp only [hl, if_true, Except.ok.injEq, Prod.mk.injEq] at h
      obtain ⟨-, ht⟩ := h
      subst ht
      omega
    · simp [hl] at h
  | succ fuel ih =>
    intro t t' cs h
    simp only [NodeInfo.decode_claims_part] at h
    by_cases hl : t.limit = 0
    · simp only [hl, if_true, Except.ok.injEq, Prod.mk.injEq] at h
      obtain ⟨-, ht⟩ := h
      subst ht
      omega
    · simp only [hl, if_false] at h
      cases h1 : Range.read_from t with
      | error e => simp [h1] at h
      | ok v =>
        obtain ⟨c, t1⟩ := v
        simp only [h1] at h
        cases h2 : NodeInfo.decode_claims_part fuel t1 with
        | error e => simp [h2] at h
        | ok w =>
          obtain ⟨cs1, t2⟩ := w
          simp only [h2, Except.ok.injEq, Prod.mk.injEq] at h
          obtain ⟨-, ht⟩ := h
          subst ht
          obtain ⟨k, hk0, hk1, hk2⟩ := Range.read_from_spec h1
          have s2 := ih h2
          exact ⟨s2.1, by omega⟩

end ParserSpecs

section WellFormed

/-- Well-formedness of a socket address as the Rust types guarantee it: the
octet list has its family's length and the port is a u16 value. -/
def SocketAddr.wf : SocketAddr → Prop
  | .v4 ip port => ip.length = 4 ∧ port < 65536
  | .v6 ip port => ip.length = 16 ∧ port < 65536

instance : (a : SocketAddr) → Decidable a.wf
  | .v4 _ _ => instDecidableAnd
  | .v6 _ _ => instDecidableAnd

/-- Well-formedness of the optional node identifier: when present it has
the fixed identifier length. -/
def PeerInfo.wfId (p : PeerInfo) : Prop :=
  match p.node_id with
  | some id => id.length = NODE_ID_BYTES
  | none => True

instance (p : PeerInfo) : Decidable p.wfId :=
  match h : p.node_id with
  | some id => decidable_of_iff (id.length = NODE_ID_BYTES) (by simp [PeerInfo.wfId, h])
  | none => decidable_of_iff True (by simp [PeerInfo.wfId, h])

/-- Well-formedness of a peer value. -/
def PeerInfo.wf (p : PeerInfo) : Prop :=
  (∀ a ∈ p.addrs, a.wf) ∧ p.wfId

instance (p : PeerInfo) : Decidable p.wf :=
  inferInstanceAs (Decidable ((∀ a ∈ p.addrs, a.wf) ∧ p.wfId))

/-- Well-formedness of a range value: its address fits the 16-byte ceiling
of the record format (the Rust Address type guarantees this). -/
def Range.wf (r : Range) : Prop := r.addr.length ≤ 16

instance (r : Range) : Decidable r.wf := inferInstanceAs (Decidable (_ ≤ _))

/-- Well-formedness of the optional peer timeout: a u16 value. -/
def NodeInfo.wfTimeout (x : NodeInfo) : Prop :=
  match x.peer_timeout with
  | some v => v < 65536
  | none => True

instance (x : NodeInfo) : Decidable x.wfTimeout :=
  match h : x.peer_timeout with
  | some v => decidable_of_iff (v < 65536) (by simp [NodeInfo.wfTimeout, h])
  | none => decidable_of_iff True (by simp [NodeInfo.wfTimeout, h])

/-- Well-formedness of a whole NodeInfo value, as the Rust types guarantee
for every value the program can construct. -/
def NodeInfo.wf (x : NodeInfo) : Prop :=
  (∀ p ∈ x.peers, p.wf) ∧ (∀ r ∈ x.claims, r.wf) ∧ x.wfTimeout

instance (x : NodeInfo) : Decidable x.wf :=
  inferInstanceAs (Decidable ((∀ p ∈ x.peers, p.wf) ∧ (∀ r ∈ x.claims, r.wf) ∧ x.wfTimeout))

/-- The peer produced by decoding the encoding of a peer: the node id is
kept, the addresses are regrouped as the first seven IPv6 addresses followed
by the first seven IPv4 addresses, in insertion order within each family. -/
def normalizePeer (p : PeerInfo) : PeerInfo :=
  ⟨p.node_id, (p.addrs.filter SocketAddr.isV6).take 7 ++ (p.addrs.filter SocketAddr.isV4).take 7⟩

end WellFormed

section EncodeDecode

/-- The two length bytes of a 16-bit write. -/
theorem length_write_u16 (v : Nat) : (write_u16 v).length = 2 := rfl

/-- Decoding the flags byte written by encode_peer recovers the address
counts and the node-id bit. -/
theorem flags_decode : ∀ v4 : Nat, v4 < 8 → ∀ v6 : Nat, v6 < 8 → ∀ b : Bool,
    Nat.land (v6 * 8 + v4 + (if b then 128 else 0)) 0x07 = v4 ∧
    Nat.land (v6 * 8 + v4 + (if b then 128 else 0)) 0x38 / 8 = v6 ∧
    ((Nat.land (v6 * 8 + v4 + (if b then 128 else 0)) 0x80 ≠ 0) ↔ b = true) := by
  decide

/-- Reading back an encoded run of well-formed IPv6 addresses. -/
theorem NodeInfo.read_ipv6_addrs_encode :
    ∀ (l : List SocketAddr), (∀ a ∈ l, a.isV6 = true ∧ a.wf) →
    ∀ (M : Nat) (rest : List Byte),
      NodeInfo.read_ipv6_addrs l.length
        ⟨(l.flatMap NodeInfo.encodeSocketAddr).length + M,
          l.flatMap NodeInfo.encodeSocketAddr ++ rest⟩
      = some (l, ⟨M, rest⟩) := by
  intro l
  induction l with
  | nil => intro _ M rest; simp [NodeInfo.read_ipv6_addrs]
  | cons a l ih =>
    intro h M rest
    obtain ⟨h6, hwf⟩ := h a (List.mem_cons_self a l)
    cases a with
    | v4 ip port => simp [SocketAddr.isV6] at h6
    | v6 ip port =>
      obtain ⟨hip, hport⟩ := hwf
      have hflat : (SocketAddr.v6 ip port :: l).flatMap NodeInfo.encodeSocketAddr
          = ip ++ (write_u16 port ++ l.flatMap NodeInfo.encodeSocketAddr) := by
        simp [NodeInfo.encodeSocketAddr]
      have hlen : ((SocketAddr.v6 ip port :: l).flatMap NodeInfo.encodeSocketAddr).length + M
          = ip.length + ((l.flatMap NodeInfo.encodeSocketAddr).length + M + 2) := by
        rw [hflat]
        simp [write_u16]
        omega
      rw [List.length_cons, hlen, hflat]
      simp only [List.append_assoc]
      simp only [NodeInfo.read_ipv6_addrs]
      rw [← hip, Take.readBytes_exact ip ((l.flatMap NodeInfo.encodeSocketAddr).length + M + 2)
        (write_u16 port ++ (l.flatMap NodeInfo.encodeSocketAddr ++ rest))]
      simp only [Option.bind_eq_bind, Option.some_bind]
      rw [show write_u16 port ++ (l.flatMap NodeInfo.encodeSocketAddr ++ rest)
          = port % 65536 / 256 :: port % 256 :: (l.flatMap NodeInfo.encodeSocketAddr ++ rest)
        from rfl]
      rw [Take.readU16_cons]
      simp only [Option.some_bind]
      rw [show port % 65536 / 256 * 256 + port % 256 = port from by omega]
      rw [ih (fun a ha => h a (List.mem_cons_of_mem _ ha)) M rest]
      simp

/-- Reading back an encoded run of well-formed IPv4 addresses. -/
theorem NodeInfo.read_ipv4_addrs_encode :
    ∀ (l : List SocketAddr), (∀ a ∈ l, a.isV4 = true ∧ a.wf) →
    ∀ (M : Nat) (rest : List Byte),
      NodeInfo.read_ipv4_addrs l.length
        ⟨(l.flatMap NodeInfo.encodeSocketAddr).length + M,
          l.flatMap NodeInfo.encodeSocketAddr ++ rest⟩
      = some (l, ⟨M, rest⟩) := by
  intro l
  induction l with
  | nil => intro _ M rest; simp [NodeInfo.read_ipv4_addrs]
  | cons a l ih =>
    intro h M rest
    obtain ⟨h4, hwf⟩ := h a (List.mem_cons_self a l)
    cases a with
    | v6 ip port => simp [SocketAddr.isV4] at h4
    | v4 ip port =>
      obtain ⟨hip, hport⟩ := hwf
      have hflat : (SocketAddr.v4 ip port :: l).flatMap NodeInfo.encodeSocketAddr
          = ip ++ (write_u16 port ++ l.flatMap NodeInfo.encodeSocketAddr) := by
        simp [NodeInfo.encodeSocketAddr]
      have hlen : ((SocketAddr.v4 ip port :: l).flatMap NodeInfo.encodeSocketAddr).length + M
          = ip.length + ((l.flatMap NodeInfo.encodeSocketAddr).length + M + 2) := by
        rw [hflat]
        simp [write_u16]
        omega
      rw [List.length_cons, hlen, hflat]
      simp only [List.append_assoc]
      simp only [NodeInfo.read_ipv4_addrs]
      rw [← hip, Take.readBytes_exact ip ((l.flatMap NodeInfo.encodeSocketAddr).length + M + 2)
        (write_u16 port ++ (l.flatMap NodeInfo.encodeSocketAddr ++ rest))]
      simp only [Option.bind_eq_bind, Option.some_bind]
      rw [show write_u16 port ++ (l.flatMap NodeInfo.encodeSocketAddr ++ rest)
          = port % 65536 / 256 :: port % 256 :: (l.flatMap NodeInfo.encodeSocketAddr ++ rest)
        from rfl]
      rw [Take.readU16_cons]
      simp only [Option.some_bind]
      rw [show port % 65536 / 256 * 256 + port % 256 = port from by omega]
      rw [ih (fun a ha => h a (List.mem_cons_of_mem _ ha)) M rest]
      simp

end EncodeDecode

section PeerListEncodeDecode

/-- Decoding one encoded peer block that carries a node id: consumes the
block and conses the peer onto whatever the rest of the region decodes to. -/
theorem NodeInfo.decode_peer_block_id (id : List Byte) (hid : id.length = NODE_ID_BYTES)
    (A6 A4 : List SocketAddr)
    (h6 : ∀ a ∈ A6, a.isV6 = true ∧ a.wf) (h4 : ∀ a ∈ A4, a.isV4 = true ∧ a.wf)
    (h6l : A6.length < 8) (h4l : A4.length < 8)
    (f R : Nat) (D : List Byte) :
    NodeInfo.decode_peer_list_part (f + 1)
      ⟨((A6.length * 8 + A4.length + 128) ::
          (id ++ (A6.flatMap NodeInfo.encodeSocketAddr ++ A4.flatMap NodeInfo.encodeSocketAddr))).length
          + R,
        ((A6.length * 8 + A4.length + 128) ::
          (id ++ (A6.flatMap NodeInfo.encodeSocketAddr ++ A4.flatMap NodeInfo.encodeSocketAddr))) ++ D⟩
    = Option.map (fun r => (⟨some id, A6 ++ A4⟩ :: r.1, r.2))
        (NodeInfo.decode_peer_list_part f ⟨R, D⟩) := by
  have hf := flags_decode A4.length h4l A6.length h6l true
  simp at hf
  have hdec6 := NodeInfo.read_ipv6_addrs_encode A6 h6
    ((A4.flatMap NodeInfo.encodeSocketAddr).length + R) (A4.flatMap NodeInfo.encodeSocketAddr ++ D)
  have hdec4 := NodeInfo.read_ipv4_addrs_encode A4 h4 R D
  generalize hE6 : A6.flatMap NodeInfo.encodeSocketAddr = E6 at hdec6 hdec4 ⊢
  generalize hE4 : A4.flatMap NodeInfo.encodeSocketAddr = E4 at hdec6 hdec4 ⊢
  simp only [List.length_cons, List.length_append, List.cons_append, List.append_assoc]
  rw [show id.length + (E6.length + E4.length) + 1 + R
      = (id.length + (E6.length + (E4.length + R))) + 1 from by omega]
  simp only [NodeInfo.decode_peer_list_part]
  rw [if_neg (Nat.succ_ne_zero _)]
  rw [Take.readU8_cons]
  simp only [Option.bind_eq_bind, Option.some_bind]
  unfold NodeInfo.read_node_id
  rw [if_pos hf.2.2, ← hid, Take.readBytes_exact]
  simp only [Option.some_bind]
  rw [hf.2.1, hdec6]
  simp only [Option.some_bind]
  rw [hf.1, hdec4]
  simp only [Option.some_bind]
  cases NodeInfo.decode_peer_list_part f ⟨R, D⟩ with
  | none => simp
  | some v => simp

/-- Decoding one encoded peer block without a node id. -/
theorem NodeInfo.decode_peer_block_noid
    (A6 A4 : List SocketAddr)
    (h6 : ∀ a ∈ A6, a.isV6 = true ∧ a.wf) (h4 : ∀ a ∈ A4, a.isV4 = true ∧ a.wf)
    (h6l : A6.length < 8) (h4l : A4.length < 8)
    (f R : Nat) (D : List Byte) :
    NodeInfo.decode_peer_list_part (f + 1)
      ⟨((A6.length * 8 + A4.length) ::
          (A6.flatMap NodeInfo.encodeSocketAddr ++ A4.flatMap NodeInfo.encodeSocketAddr)).length + R,
        ((A6.length * 8 + A4.length) ::
          (A6.flatMap NodeInfo.encodeSocketAddr ++ A4.flatMap NodeInfo.encodeSocketAddr)) ++ D⟩
    = Option.map (fun r => (⟨none, A6 ++ A4⟩ :: r.1, r.2))
        (NodeInfo.decode_peer_list_part f ⟨R, D⟩) := by
  have hf := flags_decode A4.length h4l A6.length h6l false
  simp at hf
  have hdec6 := NodeInfo.read_ipv6_addrs_encode A6 h6
    ((A4.flatMap NodeInfo.encodeSocketAddr).length + R) (A4.flatMap NodeInfo.encodeSocketAddr ++ D)
  have hdec4 := NodeInfo.read_ipv4_addrs_encode A4 h4 R D
  generalize hE6 : A6.flatMap NodeInfo.encodeSocketAddr = E6 at hdec6 hdec4 ⊢
  generalize hE4 : A4.flatMap NodeInfo.encodeSocketAddr = E4 at hdec6 hdec4 ⊢
  simp only [List.length_cons, List.length_append, List.cons_append, List.append_assoc]
  rw [show E6.length + E4.length + 1 + R = (E6.length + (E4.length + R)) + 1 from by omega]
  simp only [NodeInfo.decode_peer_list_part]
  rw [if_neg (Nat.succ_ne_zero _)]
  rw [Take.readU8_cons]
  simp only [Option.bind_eq_bind, Option.some_bind]
  unfold NodeInfo.read_node_id
  rw [if_neg (by simpa using hf.2.2)]
  simp only [Option.some_bind]
  rw [hf.2.1, hdec6]
  simp only [Option.some_bind]
  rw [hf.1, hdec4]
  simp only [Option.some_bind]
  cases NodeInfo.decode_peer_list_part f ⟨R, D⟩ with
  | none => simp
  | some v => simp

end PeerListEncodeDecode

section ListEncodeDecode

/-- Every address kept by the IPv6 filter-and-truncate of encode_peer is a
well-formed IPv6 address. -/
theorem mem_take_filter_v6 {p : PeerInfo} (hp : p.wf) :
    ∀ a ∈ (p.addrs.filter SocketAddr.isV6).take 7, a.isV6 = true ∧ a.wf := by
  intro a ha
  have hmem := List.mem_of_mem_take ha
  exact ⟨List.of_mem_filter hmem, hp.1 a (List.mem_of_mem_filter hmem)⟩

/-- Every address kept by the IPv4 filter-and-truncate of encode_peer is a
well-formed IPv4 address. -/
theorem mem_take_filter_v4 {p : PeerInfo} (hp : p.wf) :
    ∀ a ∈ (p.addrs.filter SocketAddr.isV4).take 7, a.isV4 = true ∧ a.wf := by
  intro a ha
  have hmem := List.mem_of_mem_take ha
  exact ⟨List.of_mem_filter hmem, hp.1 a (List.mem_of_mem_filter hmem)⟩

/-- Decoding the encoding of one well-formed peer at the head of the
bounded region conses its normalized form onto the decode of the rest. -/
theorem NodeInfo.decode_peer_list_step (p : PeerInfo) (hp : p.wf) (f R : Nat) (D : List Byte) :
    NodeInfo.decode_peer_list_part (f + 1)
      ⟨(NodeInfo.encode_peer p).length + R, NodeInfo.encode_peer p ++ D⟩
    = Option.map (fun r => (normalizePeer p :: r.1, r.2))
        (NodeInfo.decode_peer_list_part f ⟨R, D⟩) := by
  obtain ⟨nid, addrs⟩ := p
  have h6 := mem_take_filter_v6 hp
  have h4 := mem_take_filter_v4 hp
  have h6l : ((addrs.filter SocketAddr.isV6).take 7).length < 8 :=
    Nat.lt_succ_of_le (List.length_take_le 7 _)
  have h4l : ((addrs.filter SocketAddr.isV4).take 7).length < 8 :=
    Nat.lt_succ_of_le (List.length_take_le 7 _)
  cases nid with
  | none =>
    have henc : NodeInfo.encode_peer ⟨none, addrs⟩
        = (((addrs.filter SocketAddr.isV6).take 7).length * 8 +
            ((addrs.filter SocketAddr.isV4).take 7).length) ::
          (((addrs.filter SocketAddr.isV6).take 7).flatMap NodeInfo.encodeSocketAddr ++
            ((addrs.filter SocketAddr.isV4).take 7).flatMap NodeInfo.encodeSocketAddr) := by
      simp [NodeInfo.encode_peer]
    have hnorm : normalizePeer ⟨none, addrs⟩
        = ⟨none, (addrs.filter SocketAddr.isV6).take 7 ++ (addrs.filter SocketAddr.isV4).take 7⟩ :=
      rfl
    rw [henc, hnorm]
    exact NodeInfo.decode_peer_block_noid _ _ h6 h4 h6l h4l f R D
  | some id =>
    have hidlen : id.length = NODE_ID_BYTES := hp.2
    have henc : NodeInfo.encode_peer ⟨some id, addrs⟩
        = (((addrs.filter SocketAddr.isV6).take 7).length * 8 +
            ((addrs.filter SocketAddr.isV4).take 7).length + 128) ::
          (id ++ (((addrs.filter SocketAddr.isV6).take 7).flatMap NodeInfo.encodeSocketAddr ++
            ((addrs.filter SocketAddr.isV4).take 7).flatMap NodeInfo.encodeSocketAddr)) := by
      simp [NodeInfo.encode_peer]
    have hnorm : normalizePeer ⟨some id, addrs⟩
        = ⟨some id, (addrs.filter SocketAddr.isV6).take 7 ++ (addrs.filter SocketAddr.isV4).take 7⟩ :=
      rfl
    rw [henc, hnorm]
    exact NodeInfo.decode_peer_block_id id hidlen _ _ h6 h4 h6l h4l f R D

/-- Decoding the encoding of a list of well-formed peers, with anything
after the bounded region untouched. -/
theorem NodeInfo.decode_peer_list_part_encode :
    ∀ (ps : List PeerInfo), (∀ p ∈ ps, p.wf) →
    ∀ (fuel : Nat), ps.length ≤ fuel → ∀ (rest : List Byte),
      NodeInfo.decode_peer_list_part fuel
        ⟨(NodeInfo.encode_peer_list_part ps).length, NodeInfo.encode_peer_list_part ps ++ rest⟩
      = some (ps.map normalizePeer, ⟨0, rest⟩) := by
  intro ps
  induction ps with
  | nil =>
    intro _ fuel _ rest
    cases fuel <;> simp [NodeInfo.decode_peer_list_part, NodeInfo.encode_peer_list_part]
  | cons p ps ih =>
    intro h fuel hfuel rest
    cases fuel with
    | zero => simp at hfuel
    | succ f =>
      have hbody : NodeInfo.encode_peer_list_part (p :: ps)
          = NodeInfo.encode_peer p ++ NodeInfo.encode_peer_list_part ps := by
        simp [NodeInfo.encode_peer_list_part]
      rw [hbody, List.length_append, List.append_assoc]
      rw [NodeInfo.decode_peer_list_step p (h p (List.mem_cons_self p ps)) f
        (NodeInfo.encode_peer_list_part ps).length (NodeInfo.encode_peer_list_part ps ++ rest)]
      rw [ih (fun q hq => h q (List.mem_cons_of_mem _ hq)) f (by simpa using Nat.le_of_succ_le_succ hfuel) rest]
      simp

/-- Decoding the encoding of one well-formed range at the head of the
bounded region conses it onto the decode of the rest. -/
theorem NodeInfo.decode_claims_step (c : Range) (hc : c.wf) (f R : Nat) (D : List Byte) :
    NodeInfo.decode_claims_part (f + 1)
      ⟨(Range.write_to c).length + R, Range.write_to c ++ D⟩
    = Except.map (fun r => (c :: r.1, r.2)) (NodeInfo.decode_claims_part f ⟨R, D⟩) := by
  obtain ⟨addr, pl⟩ := c
  have hwt : Range.write_to ⟨addr, pl⟩ = addr.length :: (addr ++ [pl]) := rfl
  rw [hwt]
  simp only [List.length_cons, List.length_append, List.length_nil, List.cons_append,
    List.append_assoc, List.singleton_append, List.nil_append, Nat.zero_add]
  rw [show addr.length + 1 + 1 + R = (addr.length + (R + 1)) + 1 from by omega]
  simp only [NodeInfo.decode_claims_part]
  rw [if_neg (Nat.succ_ne_zero _)]
  unfold Range.read_from
  simp only [Take.readU8_cons]
  rw [if_neg (by exact Nat.not_lt.mpr hc)]
  simp only [Take.readBytes_exact, show R + 1 = R + 0 + 1 from rfl, Take.readU8_cons, Nat.add_zero]
  cases NodeInfo.decode_claims_part f ⟨R, D⟩ with
  | error e => simp [Except.map]
  | ok v => simp [Except.map]

/-- Decoding the encoding of a list of well-formed ranges, with anything
after the bounded region untouched. -/
theorem NodeInfo.decode_claims_part_encode :
    ∀ (cs : List Range), (∀ c ∈ cs, c.wf) →
    ∀ (fuel : Nat), cs.length ≤ fuel → ∀ (rest : List Byte),
      NodeInfo.decode_claims_part fuel
        ⟨(NodeInfo.encode_claims_part cs).length, NodeInfo.encode_claims_part cs ++ rest⟩
      = .ok (cs, ⟨0, rest⟩) := by
  intro cs
  induction cs with
  | nil =>
    intro _ fuel _ rest
    cases fuel <;> simp [NodeInfo.decode_claims_part, NodeInfo.encode_claims_part]
  | cons c cs ih =>
    intro h fuel hfuel rest
    cases fuel with
    | zero => simp at hfuel
    | succ f =>
      have hbody : NodeInfo.encode_claims_part (c :: cs)
          = Range.write_to c ++ NodeInfo.encode_claims_part cs := by
        simp [NodeInfo.encode_claims_part]
      rw [hbody, List.length_append, List.append_assoc]
      rw [NodeInfo.decode_claims_step c (h c (List.mem_cons_self c cs)) f
        (NodeInfo.encode_claims_part cs).length (NodeInfo.encode_claims_part cs ++ rest)]
      rw [ih (fun q hq => h q (List.mem_cons_of_mem _ hq)) f (by simpa using Nat.le_of_succ_le_succ hfuel) rest]
      simp [Except.map]

/-- The encoded peer list is at least one byte per peer. -/
theorem NodeInfo.encode_peer_list_length_ge (ps : List PeerInfo) :
    ps.length ≤ (NodeInfo.encode_peer_list_part ps).length := by
  induction ps with
  | nil => simp [NodeInfo.encode_peer_list_part]
  | cons p ps ih =>
    have : NodeInfo.encode_peer_list_part (p :: ps)
        = NodeInfo.encode_peer p ++ NodeInfo.encode_peer_list_part ps := by
      simp [NodeInfo.encode_peer_list_part]
    rw [this, List.length_append]
    have hp : 1 ≤ (NodeInfo.encode_peer p).length := by
      simp [NodeInfo.encode_peer]
    simp only [List.length_cons]
    omega

/-- The encoded claims list is at least one byte per range. -/
theorem NodeInfo.encode_claims_length_ge (cs : List Range) :
    cs.length ≤ (NodeInfo.encode_claims_part cs).length := by
  induction cs with
  | nil => simp [NodeInfo.encode_claims_part]
  | cons c cs ih =>
    have : NodeInfo.encode_claims_part (c :: cs)
        = Range.write_to c ++ NodeInfo.encode_claims_part cs := by
      simp [NodeInfo.encode_claims_part]
    rw [this, List.length_append]
    have hc : 1 ≤ (Range.write_to c).length := by
      simp [Range.write_to]
    simp only [List.length_cons]
    omega

end ListEncodeDecode

section PartSteps

/-- The terminator tag ends decoding successfully with the current
accumulator values, ignoring everything after it. -/
theorem NodeInfo.decode_go_end (fuel : Nat) (rest : List Byte) (a : List PeerInfo)
    (b : List Range) (c : Option Nat) :
    NodeInfo.decode_internal_go (fuel + 1) (0 :: rest) a b c = .ok ⟨a, b, c⟩ := by
  simp [NodeInfo.decode_internal_go]

/-- Processing an encoded peers part replaces the peers accumulator with the
decoded (normalized) peer list and continues right after the part. -/
theorem NodeInfo.decode_go_peers_step (ps : List PeerInfo) (hps : ∀ p ∈ ps, p.wf)
    (hlen : (NodeInfo.encode_peer_list_part ps).length ≤ 65535)
    (fuel : Nat) (rest : List Byte) (a : List PeerInfo) (b : List Range) (c : Option Nat) :
    NodeInfo.decode_internal_go (fuel + 1)
      (NodeInfo.encodePart 1 (NodeInfo.encode_peer_list_part ps) ++ rest) a b c
    = NodeInfo.decode_internal_go fuel rest (ps.map normalizePeer) b c := by
  have hpl : (NodeInfo.encode_peer_list_part ps).length % 65536 / 256 * 256 +
      (NodeInfo.encode_peer_list_part ps).length % 256
      = (NodeInfo.encode_peer_list_part ps).length := by omega
  have hdec := NodeInfo.decode_peer_list_part_encode ps hps
    ((NodeInfo.encode_peer_list_part ps).length + 1)
    (Nat.le_succ_of_le (NodeInfo.encode_peer_list_length_ge ps)) rest
  simp only [NodeInfo.encodePart, write_u16, List.cons_append, List.append_assoc,
    List.nil_append]
  simp only [NodeInfo.decode_internal_go]
  rw [if_neg (by decide : ¬((1 : Byte) = 0)), if_pos trivial, hpl, hdec]

/-- Processing an encoded claims part replaces the claims accumulator with
the decoded range list and continues right after the part. -/
theorem NodeInfo.decode_go_claims_step (cs : List Range) (hcs : ∀ r ∈ cs, r.wf)
    (hlen : (NodeInfo.encode_claims_part cs).length ≤ 65535)
    (fuel : Nat) (rest : List Byte) (a : List PeerInfo) (b : List Range) (c : Option Nat) :
    NodeInfo.decode_internal_go (fuel + 1)
      (NodeInfo.encodePart 2 (NodeInfo.encode_claims_part cs) ++ rest) a b c
    = NodeInfo.decode_internal_go fuel rest a cs c := by
  have hpl : (NodeInfo.encode_claims_part cs).length % 65536 / 256 * 256 +
      (NodeInfo.encode_claims_part cs).length % 256
      = (NodeInfo.encode_claims_part cs).length := by omega
  have hdec := NodeInfo.decode_claims_part_encode cs hcs
    ((NodeInfo.encode_claims_part cs).length + 1)
    (Nat.le_succ_of_le (NodeInfo.encode_claims_length_ge cs)) rest
  simp only [NodeInfo.encodePart, write_u16, List.cons_append, List.append_assoc,
    List.nil_append]
  simp only [NodeInfo.decode_internal_go]
  rw [if_neg (by decide : ¬((2 : Byte) = 0)), if_neg (by decide : ¬((2 : Byte) = 1)),
    if_pos trivial, hpl, hdec]

/-- Processing an encoded peer-timeout part sets the timeout accumulator and
continues right after the part. -/
theorem NodeInfo.decode_go_timeout_step (v : Nat) (hv : v < 65536)
    (fuel : Nat) (rest : List Byte) (a : List PeerInfo) (b : List Range) (c : Option Nat) :
    NodeInfo.decode_internal_go (fuel + 1)
      (NodeInfo.encodePart 3 (write_u16 v) ++ rest) a b c
    = NodeInfo.decode_internal_go fuel rest a b (some v) := by
  simp only [NodeInfo.encodePart, write_u16, List.cons_append, List.append_assoc,
    List.nil_append, List.length_cons, List.length_nil]
  simp only [NodeInfo.decode_internal_go]
  rw [if_neg (by decide : ¬((3 : Byte) = 0)), if_neg (by decide : ¬((3 : Byte) = 1)),
    if_neg (by decide : ¬((3 : Byte) = 2)), if_pos trivial]
  norm_num
  rw [show (2 : Nat) = 0 + 2 from rfl, Take.readU16_cons]
  rw [show v % 65536 / 256 * 256 + v % 256 = v from by omega]

/-- Processing a part with an unrecognized tag and a correct length skips
exactly its body and leaves the accumulators unchanged. -/
theorem NodeInfo.decode_go_unknown_step (tag hi lo : Nat) (body : List Byte)
    (h0 : tag ≠ 0) (h1 : tag ≠ 1) (h2 : tag ≠ 2) (h3 : tag ≠ 3)
    (hlen : body.length = hi * 256 + lo)
    (fuel : Nat) (rest : List Byte) (a : List PeerInfo) (b : List Range) (c : Option Nat) :
    NodeInfo.decode_internal_go (fuel + 1) (tag :: hi :: lo :: (body ++ rest)) a b c
    = NodeInfo.decode_internal_go fuel rest a b c := by
  simp only [NodeInfo.decode_internal_go]
  rw [if_neg h0, if_neg h1, if_neg h2, if_neg h3, ← hlen]
  rw [show (⟨body.length, body ++ rest⟩ : Take)
      = ⟨body.length + 0, body ++ rest⟩ from by simp]
  rw [Take.readBytes_exact]

/-- A peer-timeout part whose declared length exceeds the two consumed bytes
does not have its leftover declared bytes skipped: decoding resumes at the
byte right after the timeout value. -/
theorem NodeInfo.decode_go_timeout_leftover (hi lo thi tlo : Nat) (hge : 2 ≤ hi * 256 + lo)
    (fuel : Nat) (rest : List Byte) (a : List PeerInfo) (b : List Range) (c : Option Nat) :
    NodeInfo.decode_internal_go (fuel + 1) (3 :: hi :: lo :: thi :: tlo :: rest) a b c
    = NodeInfo.decode_internal_go fuel rest a b (some (thi * 256 + tlo)) := by
  obtain ⟨k, hk⟩ : ∃ k, hi * 256 + lo = k + 2 := ⟨hi * 256 + lo - 2, by omega⟩
  simp only [NodeInfo.decode_internal_go]
  rw [if_neg (by decide : ¬((3 : Byte) = 0)), if_neg (by decide : ¬((3 : Byte) = 1)),
    if_neg (by decide : ¬((3 : Byte) = 2)), if_pos trivial, hk, Take.readU16_cons]

end PartSteps

section TopLevel

/-- An encoded part is three header bytes plus its body. -/
theorem NodeInfo.length_encodePart (tag : Byte) (body : List Byte) :
    (NodeInfo.encodePart tag body).length = body.length + 3 := by
  simp only [NodeInfo.encodePart, write_u16, List.length_cons, List.length_append,
    List.length_nil]
  omega

/-- Decoding the encoding of a well-formed NodeInfo whose part bodies fit
the 16-bit length fields: the claims and timeout come back unchanged and
each peer comes back normalized (first seven IPv6 addresses, then first
seven IPv4 addresses, order kept within each family). -/
theorem NodeInfo.decode_encode_normal (x : NodeInfo) (hwf : x.wf)
    (hp : (NodeInfo.encode_peer_list_part x.peers).length ≤ 65535)
    (hc : (NodeInfo.encode_claims_part x.claims).length ≤ 65535) :
    NodeInfo.decode (NodeInfo.encode x)
    = .ok ⟨x.peers.map normalizePeer, x.claims, x.peer_timeout⟩ := by
  obtain ⟨peers, claims, pt⟩ := x
  obtain ⟨hwp, hwc, hwt⟩ := hwf
  simp only [NodeInfo.decode, NodeInfo.decode_internal]
  cases pt with
  | none =>
    have henc : NodeInfo.encode ⟨peers, claims, none⟩
        = NodeInfo.encodePart 1 (NodeInfo.encode_peer_list_part peers) ++
          (NodeInfo.encodePart 2 (NodeInfo.encode_claims_part claims) ++ [0]) := by
      simp [NodeInfo.encode]
    rw [henc]
    generalize hL : (NodeInfo.encodePart 1 (NodeInfo.encode_peer_list_part peers) ++
      (NodeInfo.encodePart 2 (NodeInfo.encode_claims_part claims) ++ [0])).length = L
    have hL2 : 2 ≤ L := by
      rw [← hL]
      simp only [List.length_append, NodeInfo.length_encodePart, List.length_cons,
        List.length_nil]
      omega
    obtain ⟨m, hm⟩ : ∃ m, L + 1 = m + 3 := ⟨L - 2, by omega⟩
    rw [hm, show m + 3 = m + 2 + 1 from rfl]
    rw [NodeInfo.decode_go_peers_step peers hwp hp (m + 2)]
    rw [show m + 2 = m + 1 + 1 from rfl]
    rw [NodeInfo.decode_go_claims_step claims hwc hc (m + 1)]
    rw [show ([0] : List Byte) = 0 :: [] from rfl, NodeInfo.decode_go_end m]
  | some v =>
    simp only [NodeInfo.wfTimeout] at hwt
    have henc : NodeInfo.encode ⟨peers, claims, some v⟩
        = NodeInfo.encodePart 1 (NodeInfo.encode_peer_list_part peers) ++
          (NodeInfo.encodePart 2 (NodeInfo.encode_claims_part claims) ++
            (NodeInfo.encodePart 3 (write_u16 v) ++ [0])) := by
      simp [NodeInfo.encode]
    rw [henc]
    generalize hL : (NodeInfo.encodePart 1 (NodeInfo.encode_peer_list_part peers) ++
      (NodeInfo.encodePart 2 (NodeInfo.encode_claims_part claims) ++
        (NodeInfo.encodePart 3 (write_u16 v) ++ [0]))).length = L
    have hL3 : 3 ≤ L := by
      rw [← hL]
      simp only [List.length_append, NodeInfo.length_encodePart, List.length_cons,
        List.length_nil]
      omega
    obtain ⟨m, hm⟩ : ∃ m, L + 1 = m + 4 := ⟨L - 3, by omega⟩
    rw [hm, show m + 4 = m + 3 + 1 from rfl]
    rw [NodeInfo.decode_go_peers_step peers hwp hp (m + 3)]
    rw [show m + 3 = m + 2 + 1 from rfl]
    rw [NodeInfo.decode_go_claims_step claims hwc hc (m + 2)]
    rw [show m + 2 = m + 1 + 1 from rfl]
    rw [NodeInfo.decode_go_timeout_step v hwt (m + 1)]
    rw [show ([0] : List Byte) = 0 :: [] from rfl, NodeInfo.decode_go_end m]

end TopLevel

section FuelIrrelevance

/-- The outer decode loop is insensitive to its fuel as long as the fuel
exceeds the input length (each iteration consumes at least one byte, so the
loop can never run more than that many times). -/
theorem NodeInfo.decode_internal_go_fuel :
    ∀ (f1 : Nat) {input : List Byte} {f2 : Nat} {a : List PeerInfo} {b : List Range}
      {c : Option Nat}, input.length < f1 → input.length < f2 →
      NodeInfo.decode_internal_go f1 input a b c = NodeInfo.decode_internal_go f2 input a b c := by
  intro f1
  induction f1 with
  | zero =>
    intro input f2 a b c h1 h2
    omega
  | succ g1 ih =>
    intro input f2 a b c h1 h2
    cases f2 with
    | zero => omega
    | succ g2 =>
      cases input with
      | nil => simp [NodeInfo.decode_internal_go]
      | cons part r =>
        by_cases hp : part = 0
        · simp [NodeInfo.decode_internal_go, hp]
        · rcases r with - | ⟨hi, - | ⟨lo, r'⟩⟩
          · simp [NodeInfo.decode_internal_go, hp]
          · simp [NodeInfo.decode_internal_go, hp]
          · have hlen : (part :: hi :: lo :: r').length = r'.length + 3 := by simp
            simp only [NodeInfo.decode_internal_go]
            rw [if_neg hp, if_neg hp]
            by_cases hp1 : part = 1
            · rw [if_pos hp1, if_pos hp1]
              cases hres : NodeInfo.decode_peer_list_part (hi * 256 + lo + 1)
                  ⟨hi * 256 + lo, r'⟩ with
              | none => rfl
              | some v =>
                obtain ⟨ps, t⟩ := v
                have hspec := NodeInfo.decode_peer_list_part_spec hres
                simp only at hspec
                exact @ih t.data g2 ps b c (by omega) (by omega)
            · rw [if_neg hp1, if_neg hp1]
              by_cases hp2 : part = 2
              · rw [if_pos hp2, if_pos hp2]
                cases hres : NodeInfo.decode_claims_part (hi * 256 + lo + 1)
                    ⟨hi * 256 + lo, r'⟩ with
                | error e => rfl
                | ok v =>
                  obtain ⟨cs, t⟩ := v
                  have hspec := NodeInfo.decode_claims_part_spec hres
                  simp only at hspec
                  exact @ih t.data g2 a cs c (by omega) (by omega)
              · rw [if_neg hp2, if_neg hp2]
                by_cases hp3 : part = 3
                · rw [if_pos hp3, if_pos hp3]
                  cases hres : Take.readU16 ⟨hi * 256 + lo, r'⟩ with
                  | none => rfl
                  | some v =>
                    obtain ⟨w, t⟩ := v
                    have hspec := Take.readU16_spec hres
                    simp only at hspec
                    exact @ih t.data g2 a b (some w) (by omega) (by omega)
                · rw [if_neg hp3, if_neg hp3]
                  cases hres : Take.readBytes ⟨hi * 256 + lo, r'⟩ (hi * 256 + lo) with
                  | none => rfl
                  | some v =>
                    obtain ⟨w, t⟩ := v
                    have hspec := Take.readBytes_spec hres
                    simp only at hspec
                    exact @ih t.data g2 a b c (by omega) (by omega)

end FuelIrrelevance

section AddressLemmas

/-- The padding invariant of Address values: the fixed buffer is 16 bytes
and every byte at or beyond the declared length is zero. -/
def Address.padOk (a : Address) : Prop :=
  a.data.length = 16 ∧ ∀ i, a.len ≤ i → a.data.getD i 0 = 0

/-- Reading a fixed-length address from a long-enough slice succeeds and
zero-pads the 16-byte buffer. -/
theorem Address.read_from_fixed_ok (slice : List Byte) (len : Nat)
    (h16 : len ≤ 16) (hs : len ≤ slice.length) :
    Address.read_from_fixed slice len
    = .ok ⟨slice.take len ++ List.replicate (16 - len) 0, len⟩ := by
  unfold Address.read_from_fixed
  rw [if_neg (by omega), if_neg (by omega)]

/-- Every position of a zero replicate reads zero. -/
theorem getD_replicate_zero : ∀ (n i : Nat), (List.replicate n (0 : Byte)).getD i 0 = 0 := by
  intro n
  induction n with
  | zero => intro i; simp
  | succ n ih =>
    intro i
    cases i with
    | zero => simp [List.replicate_succ]
    | succ i => simp [List.replicate_succ, ih]

/-- A buffer built as len meaningful bytes plus zero padding to 16 bytes
satisfies the padding invariant. -/
theorem Address.padOk_pad (A : List Byte) (len : Nat) (hA : A.length = len)
    (hlen : len ≤ 16) : (Address.mk (A ++ List.replicate (16 - len) 0) len).padOk := by
  constructor
  · simp [hA]
    omega
  · intro i hi
    change len ≤ i at hi
    change (A ++ List.replicate (16 - len) 0).getD i 0 = 0
    rw [List.getD_append_right _ _ _ _ (by omega)]
    exact getD_replicate_zero _ _

/-- Every address produced by a successful read_from_fixed satisfies the
padding invariant. -/
theorem Address.read_from_fixed_padOk {slice : List Byte} {len : Nat} {a : Address}
    (h : Address.read_from_fixed slice len = .ok a) : a.padOk := by
  unfold Address.read_from_fixed at h
  by_cases h16 : 16 < len
  · simp [h16] at h
  · rw [if_neg h16] at h
    by_cases hs : slice.length < len
    · simp [hs] at h
    · rw [if_neg hs] at h
      simp only [Except.ok.injEq] at h
      subst h
      exact Address.padOk_pad _ _ (by simp [List.length_take]; omega) (by omega)

end AddressLemmas

section DissectorClaims

/-- Claim C7: Frame::parse fails with a parse error on inputs shorter than
14 bytes; with at least 14 bytes and no VLAN marker at bytes 12..14 it
returns source = bytes 6..12 and destination = bytes 0..6 as length-6
addresses; with the marker it fails on inputs shorter than 16 bytes and
otherwise returns length-8 addresses both prefixed with the 2 VLAN payload
bytes 14..16 followed by the respective original 6 MAC bytes. -/
theorem claim_C7 (data : List Byte) :
    (data.length < 14 → Frame.parse data = .error (.Parse "Frame is too short")) ∧
    (14 ≤ data.length → ¬(data.getD 12 0 = 0x81 ∧ data.getD 13 0 = 0x00) →
      Frame.parse data = .ok
        (⟨(data.drop 6).take 6 ++ List.replicate 10 0, 6⟩,
         ⟨data.take 6 ++ List.replicate 10 0, 6⟩)) ∧
    (14 ≤ data.length → (data.getD 12 0 = 0x81 ∧ data.getD 13 0 = 0x00) →
      data.length < 16 → Frame.parse data = .error (.Parse "Vlan frame is too short")) ∧
    (16 ≤ data.length → (data.getD 12 0 = 0x81 ∧ data.getD 13 0 = 0x00) →
      Frame.parse data = .ok
        (⟨data.getD 14 0 :: data.getD 15 0 :: ((data.drop 6).take 6 ++ List.replicate 8 0), 8⟩,
         ⟨data.getD 14 0 :: data.getD 15 0 :: (data.take 6 ++ List.replicate 8 0), 8⟩)) := by
  refine ⟨?_, ?_, ?_, ?_⟩
  · intro hlt
    unfold Frame.parse
    rw [if_pos hlt]
  · intro hge hmark
    unfold Frame.parse
    rw [if_neg (by omega), if_neg hmark]
    have hs1 : ((data.drop 6).take 6).length = 6 := by
      simp [List.length_take, List.length_drop]
      omega
    have hs2 : (data.take 6).length = 6 := by
      simp [List.length_take]
      omega
    simp only [Address.read_from_fixed_ok ((data.drop 6).take 6) 6 (by omega) (by omega),
      Address.read_from_fixed_ok (data.take 6) 6 (by omega) (by omega)]
    rw [List.take_of_length_le hs1.le, List.take_of_length_le hs2.le]
  · intro hge hmark hlt
    unfold Frame.parse
    rw [if_neg (by omega), if_pos hmark, if_pos hlt]
  · intro hge hmark
    unfold Frame.parse
    rw [if_neg (by omega), if_pos hmark, if_neg (by omega)]

/-- Claim C8: Packet::parse fails on empty input; with version nibble 4 it
fails on inputs shorter than 20 bytes and otherwise returns source =
bytes 12..16 and destination = bytes 16..20 as length-4 addresses; with
version nibble 6 it fails on inputs shorter than 40 bytes and otherwise
returns source = bytes 8..24 and destination = bytes 24..40 as length-16
addresses; every other version nibble fails with an invalid-format error. -/
theorem claim_C8 (data : List Byte) :
    (data.length = 0 → Packet.parse data = .error (.Parse "Empty header")) ∧
    (0 < data.length → data.getD 0 0 / 16 = 4 → data.length < 20 →
      Packet.parse data = .error (.Parse "Truncated IPv4 header")) ∧
    (data.getD 0 0 / 16 = 4 → 20 ≤ data.length →
      Packet.parse data = .ok
        (⟨(data.drop 12).take 4 ++ List.replicate 12 0, 4⟩,
         ⟨(data.drop 16).take 4 ++ List.replicate 12 0, 4⟩)) ∧
    (0 < data.length → data.getD 0 0 / 16 = 6 → data.length < 40 →
      Packet.parse data = .error (.Parse "Truncated IPv6 header")) ∧
    (data.getD 0 0 / 16 = 6 → 40 ≤ data.length →
      Packet.parse data = .ok
        (⟨(data.drop 8).take 16 ++ List.replicate 0 0, 16⟩,
         ⟨(data.drop 24).take 16 ++ List.replicate 0 0, 16⟩)) ∧
    (0 < data.length → data.getD 0 0 / 16 ≠ 4 → data.getD 0 0 / 16 ≠ 6 →
      Packet.parse data = .error (.Parse "Invalid IP protocol version")) := by
  refine ⟨?_, ?_, ?_, ?_, ?_, ?_⟩
  · intro h0
    unfold Packet.parse
    rw [if_pos h0]
  · intro hpos hv hlt
    unfold Packet.parse
    rw [if_neg (by omega), if_pos hv, if_pos hlt]
  · intro hv hge
    unfold Packet.parse
    rw [if_neg (by omega), if_pos hv, if_neg (by omega)]
    have hs1 : 4 ≤ (data.drop 12).length := by simp [List.length_drop]; omega
    have hs2 : 4 ≤ (data.drop 16).length := by simp [List.length_drop]; omega
    simp only [Address.read_from_fixed_ok (data.drop 12) 4 (by omega) hs1,
      Address.read_from_fixed_ok (data.drop 16) 4 (by omega) hs2]
  · intro hpos hv hlt
    unfold Packet.parse
    rw [if_neg (by omega), if_neg (by rw [hv]; decide), if_pos hv, if_pos hlt]
  · intro hv hge
    unfold Packet.parse
    rw [if_neg (by omega), if_neg (by rw [hv]; decide), if_pos hv, if_neg (by omega)]
    have hs1 : 16 ≤ (data.drop 8).length := by simp [List.length_drop]; omega
    have hs2 : 16 ≤ (data.drop 24).length := by simp [List.length_drop]; omega
    simp only [Address.read_from_fixed_ok (data.drop 8) 16 (by omega) hs1,
      Address.read_from_fixed_ok (data.drop 24) 16 (by omega) hs2]
  · intro hpos hv4 hv6
    unfold Packet.parse
    rw [if_neg (by omega), if_neg hv4, if_neg hv6]

/-- A VLAN-tagged address buffer satisfies the padding invariant. -/
theorem Address.padOk_vlan (x y : Byte) (S : List Byte) (hS : S.length = 6) :
    (Address.mk (x :: y :: (S ++ List.replicate 8 0)) 8).padOk := by
  have hform : x :: y :: (S ++ List.replicate 8 0)
      = ([x, y] ++ S) ++ List.replicate (16 - 8) 0 := by simp
  rw [hform]
  exact Address.padOk_pad _ _ (by simp [hS]) (by omega)

/-- Claim C9: every address produced by a successful Frame::parse or
Packet::parse satisfies the padding invariant (16-byte buffer, zero beyond
the declared length); consequently two such addresses with equal declared
length and equal leading bytes have identical full buffers. -/
theorem claim_C9 :
    (∀ (d : List Byte) (s t : Address), Frame.parse d = .ok (s, t) → s.padOk ∧ t.padOk) ∧
    (∀ (d : List Byte) (s t : Address), Packet.parse d = .ok (s, t) → s.padOk ∧ t.padOk) ∧
    (∀ a b : Address, a.padOk → b.padOk → a.len = b.len →
      a.data.take a.len = b.data.take b.len → a.data = b.data) := by
  refine ⟨?_, ?_, ?_⟩
  · intro d s t h
    unfold Frame.parse at h
    by_cases h14 : d.length < 14
    · rw [if_pos h14] at h
      exact absurd h (by simp)
    · rw [if_neg h14] at h
      by_cases hmark : d.getD 12 0 = 0x81 ∧ d.getD 13 0 = 0x00
      · rw [if_pos hmark] at h
        by_cases h16 : d.length < 16
        · rw [if_pos h16] at h
          exact absurd h (by simp)
        · rw [if_neg h16] at h
          simp only [Except.ok.injEq, Prod.mk.injEq] at h
          obtain ⟨hs, ht⟩ := h
          subst hs ht
          constructor
          · exact Address.padOk_vlan _ _ _ (by simp [List.length_take, List.length_drop]; omega)
          · exact Address.padOk_vlan _ _ _ (by simp [List.length_take]; omega)
      · rw [if_neg hmark] at h
        cases h1 : Address.read_from_fixed ((d.drop 6).take 6) 6 with
        | error e => rw [h1] at h; exact absurd h (by simp)
        | ok src =>
          rw [h1] at h
          cases h2 : Address.read_from_fixed (d.take 6) 6 with
          | error e => rw [h2] at h; exact absurd h (by simp)
          | ok dst =>
            rw [h2] at h
            simp only [Except.ok.injEq, Prod.mk.injEq] at h
            obtain ⟨hs, ht⟩ := h
            subst hs ht
            exact ⟨Address.read_from_fixed_padOk h1, Address.read_from_fixed_padOk h2⟩
  · intro d s t h
    unfold Packet.parse at h
    by_cases h0 : d.length = 0
    · rw [if_pos h0] at h
      exact absurd h (by simp)
    · rw [if_neg h0] at h
      by_cases hv4 : d.getD 0 0 / 16 = 4
      · rw [if_pos hv4] at h
        by_cases h20 : d.length < 20
        · rw [if_pos h20] at h
          exact absurd h (by simp)
        · rw [if_neg h20] at h
          cases h1 : Address.read_from_fixed (d.drop 12) 4 with
          | error e => rw [h1] at h; exact absurd h (by simp)
          | ok src =>
            rw [h1] at h
            cases h2 : Address.read_from_fixed (d.drop 16) 4 with
            | error e => rw [h2] at h; exact absurd h (by simp)
            | ok dst =>
              rw [h2] at h
              simp only [Except.ok.injEq, Prod.mk.injEq] at h
              obtain ⟨hs, ht⟩ := h
              subst hs ht
              exact ⟨Address.read_from_fixed_padOk h1, Address.read_from_fixed_padOk h2⟩
      · rw [if_neg hv4] at h
        by_cases hv6 : d.getD 0 0 / 16 = 6
        · rw [if_pos hv6] at h
          by_cases h40 : d.length < 40
          · rw [if_pos h40] at h
            exact absurd h (by simp)
          · rw [if_neg h40] at h
            cases h1 : Address.read_from_fixed (d.drop 8) 16 with
            | error e => rw [h1] at h; exact absurd h (by simp)
            | ok src =>
              rw [h1] at h
              cases h2 : Address.read_from_fixed (d.drop 24) 16 with
              | error e => rw [h2] at h; exact absurd h (by simp)
              | ok dst =>
                rw [h2] at h
                simp only [Except.ok.injEq, Prod.mk.injEq] at h
                obtain ⟨hs, ht⟩ := h
                subst hs ht
                exact ⟨Address.read_from_fixed_padOk h1, Address.read_from_fixed_padOk h2⟩
        · rw [if_neg hv6] at h
          exact absurd h (by simp)
  · intro a b hA hB hlen htake
    apply List.ext_getElem (by rw [hA.1, hB.1])
    intro i h1 h2
    by_cases hi : i < a.len
    · have h1' : (a.data.take a.len)[i]? = (b.data.take b.len)[i]? := by rw [htake]
      rw [List.getElem?_take, if_pos hi, List.getElem?_take, if_pos (hlen ▸ hi)] at h1'
      rw [List.getElem?_eq_getElem h1, List.getElem?_eq_getElem h2] at h1'
      exact Option.some.inj h1'
    · have ha0 := hA.2 i (by omega)
      have hb0 := hB.2 i (by omega)
      rw [List.getD_eq_getElem a.data 0 h1] at ha0
      rw [List.getD_eq_getElem b.data 0 h2] at hb0
      rw [ha0, hb0]

/-- Witness for C7: the repository's own no-VLAN ethernet test vector. -/
theorem claim_C7_witness :
    14 ≤ ([6, 5, 4, 3, 2, 1, 1, 2, 3, 4, 5, 6, 1, 2, 3, 4, 5, 6, 7, 8] : List Byte).length ∧
    Frame.parse [6, 5, 4, 3, 2, 1, 1, 2, 3, 4, 5, 6, 1, 2, 3, 4, 5, 6, 7, 8]
      = .ok (⟨[1, 2, 3, 4, 5, 6, 0, 0, 0, 0, 0, 0, 0, 0, 0, 0], 6⟩,
             ⟨[6, 5, 4, 3, 2, 1, 0, 0, 0, 0, 0, 0, 0, 0, 0, 0], 6⟩) := by
  refine ⟨by decide, ?_⟩
  have h := (claim_C7 [6, 5, 4, 3, 2, 1, 1, 2, 3, 4, 5, 6, 1, 2, 3, 4, 5, 6, 7, 8]).2.1
    (by decide) (by decide)
  exact h.trans (by decide)

/-- Witness for C8: the repository's own IPv4 test vector. -/
theorem claim_C8_witness :
    ([0x40, 0, 0, 0, 0, 0, 0, 0, 0, 0, 0, 0, 192, 168, 1, 1, 192, 168, 1, 2] : List Byte).getD 0 0 / 16 = 4 ∧
    Packet.parse [0x40, 0, 0, 0, 0, 0, 0, 0, 0, 0, 0, 0, 192, 168, 1, 1, 192, 168, 1, 2]
      = .ok (⟨[192, 168, 1, 1, 0, 0, 0, 0, 0, 0, 0, 0, 0, 0, 0, 0], 4⟩,
             ⟨[192, 168, 1, 2, 0, 0, 0, 0, 0, 0, 0, 0, 0, 0, 0, 0], 4⟩) := by
  refine ⟨by decide, ?_⟩
  have h := (claim_C8 [0x40, 0, 0, 0, 0, 0, 0, 0, 0, 0, 0, 0, 192, 168, 1, 1, 192, 168, 1, 2]).2.2.1
    (by decide) (by decide)
  exact h.trans (by decide)

/-- Witness for C9: the addresses parsed from the no-VLAN ethernet test
vector satisfy the padding invariant. -/
theorem claim_C9_witness :
    Address.padOk ⟨[1, 2, 3, 4, 5, 6, 0, 0, 0, 0, 0, 0, 0, 0, 0, 0], 6⟩ ∧
    Address.padOk ⟨[6, 5, 4, 3, 2, 1, 0, 0, 0, 0, 0, 0, 0, 0, 0, 0], 6⟩ :=
  claim_C9.1 [6, 5, 4, 3, 2, 1, 1, 2, 3, 4, 5, 6, 1, 2, 3, 4, 5, 6, 7, 8] _ _ (by decide)

end DissectorClaims

section ClaimC1

/-- Concrete NodeInfo whose single peer lists an IPv4 address before an
IPv6 address. -/
def c1x : NodeInfo :=
  ⟨[⟨none, [SocketAddr.v4 [10, 0, 0, 1] 80,
            SocketAddr.v6 [9, 9, 9, 9, 9, 9, 9, 9, 9, 9, 9, 9, 9, 9, 9, 9] 300]⟩], [], none⟩

/-- Counterexample to C1 as stated: a NodeInfo with one peer holding one
IPv4 and one IPv6 address (well within the seven-per-family ceiling) does
not round-trip, because the decoder returns all IPv6 addresses before all
IPv4 addresses while the original list was ordered the other way. -/
theorem claim_C1_counterexample :
    ((c1x.peers.getD 0 ⟨none, []⟩).addrs.filter SocketAddr.isV4).length ≤ 7 ∧
    ((c1x.peers.getD 0 ⟨none, []⟩).addrs.filter SocketAddr.isV6).length ≤ 7 ∧
    NodeInfo.decode (NodeInfo.encode c1x) ≠ .ok c1x := by
  decide

/-- Claim C1 (amended): for every well-formed NodeInfo in which each peer
has at most 7 IPv4 and at most 7 IPv6 socket addresses, each peer's address
list already orders all IPv6 addresses before all IPv4 addresses, and the
encoded peers and claims part bodies each fit the 16-bit length field,
decoding the encoding returns exactly the original value. -/
theorem claim_C1 (x : NodeInfo) (hwf : x.wf)
    (h7a : ∀ p ∈ x.peers, (p.addrs.filter SocketAddr.isV4).length ≤ 7)
    (h7b : ∀ p ∈ x.peers, (p.addrs.filter SocketAddr.isV6).length ≤ 7)
    (hord : ∀ p ∈ x.peers,
      p.addrs = p.addrs.filter SocketAddr.isV6 ++ p.addrs.filter SocketAddr.isV4)
    (hp : (NodeInfo.encode_peer_list_part x.peers).length ≤ 65535)
    (hc : (NodeInfo.encode_claims_part x.claims).length ≤ 65535) :
    NodeInfo.decode (NodeInfo.encode x) = .ok x := by
  rw [NodeInfo.decode_encode_normal x hwf hp hc]
  have hpeers : x.peers.map normalizePeer = x.peers := by
    have hcongr : ∀ p ∈ x.peers, normalizePeer p = id p := by
      intro p hmem
      unfold normalizePeer
      rw [List.take_of_length_le (h7b p hmem), List.take_of_length_le (h7a p hmem),
        ← hord p hmem]
      rfl
    rw [List.map_congr_left hcongr, List.map_id]
  rw [hpeers]

/-- Witness for C1 (amended): a NodeInfo with a node id, one IPv6 then one
IPv4 address, one claim and a timeout round-trips exactly. -/
theorem claim_C1_witness :
    NodeInfo.decode (NodeInfo.encode
      ⟨[⟨some [7, 7, 7, 7, 7, 7, 7, 7, 7, 7, 7, 7, 7, 7, 7, 7],
         [SocketAddr.v6 [9, 9, 9, 9, 9, 9, 9, 9, 9, 9, 9, 9, 9, 9, 9, 9] 300,
          SocketAddr.v4 [10, 0, 0, 1] 80]⟩],
        [⟨[10, 0, 0, 0], 24⟩], some 600⟩)
    = .ok ⟨[⟨some [7, 7, 7, 7, 7, 7, 7, 7, 7, 7, 7, 7, 7, 7, 7, 7],
         [SocketAddr.v6 [9, 9, 9, 9, 9, 9, 9, 9, 9, 9, 9, 9, 9, 9, 9, 9] 300,
          SocketAddr.v4 [10, 0, 0, 1] 80]⟩],
        [⟨[10, 0, 0, 0], 24⟩], some 600⟩ :=
  claim_C1 _ (by decide) (by decide) (by decide) (by decide) (by decide) (by decide)

end ClaimC1

section ClaimC2

/-- Counterexample to C2 as stated: a peer-timeout part with declared
length 4 whose two extra body bytes are 1, 2 makes the whole message fail
to decode (the leftover bytes are parsed as a new part header), while the
same message with declared length 2 and no extra bytes decodes. -/
theorem claim_C2_counterexample :
    NodeInfo.decode [3, 0, 4, 0, 100, 1, 2, 0] = .error (.Message "Input data too short") ∧
    NodeInfo.decode [3, 0, 2, 0, 100, 0] = .ok ⟨[], [], some 100⟩ := by
  decide

/-- Claim C2 (amended): after a peer-timeout part with declared length at
least 2, the outer loop resumes immediately after the two consumed timeout
bytes, regardless of the declared length: the unconsumed declared bytes are
not skipped and are treated as subsequent message content. -/
theorem claim_C2 (hi lo thi tlo : Nat) (hge : 2 ≤ hi * 256 + lo) (fuel : Nat)
    (rest : List Byte) (a : List PeerInfo) (b : List Range) (c : Option Nat) :
    NodeInfo.decode_internal_go (fuel + 1) (3 :: hi :: lo :: thi :: tlo :: rest) a b c
    = NodeInfo.decode_internal_go fuel rest a b (some (thi * 256 + tlo)) :=
  NodeInfo.decode_go_timeout_leftover hi lo thi tlo hge fuel rest a b c

/-- Witness for C2 (amended): a timeout part with declared length 4 hands
the two leftover bytes to the outer loop. -/
theorem claim_C2_witness :
    (2 ≤ 0 * 256 + 4) ∧
    NodeInfo.decode_internal_go 2 [3, 0, 4, 0, 100, 0] [] [] none
      = NodeInfo.decode_internal_go 1 [0] [] [] (some 100) := by
  refine ⟨by decide, ?_⟩
  have h := claim_C2 0 4 0 100 (by decide) 1 [0] [] [] none
  exact h.trans (by decide)

end ClaimC2

section ClaimC3

/-- Counterexample to C3 as stated: a claims part holding a malformed range
record (length byte 17 is above the 16-byte ceiling) surfaces the range
reader's distinct parse error from decode_internal, but NodeInfo::decode
replaces it with the generic input-too-short error, so the caller of decode
never sees the distinct error. -/
theorem claim_C3_counterexample :
    NodeInfo.decode_internal [2, 0, 2, 17, 7, 0] = .error (.Parse "Invalid address length") ∧
    NodeInfo.decode [2, 0, 2, 17, 7, 0] = .error (.Message "Input data too short") := by
  decide

/-- Claim C3 (amended): when the claims part holds a malformed (not merely
truncated) range record, decode_internal propagates the range reader's own
distinct parse error unchanged, but the public decode replaces every
internal error, including this one, with the generic input-too-short
truncation error. -/
theorem claim_C3 (b hi lo : Nat) (rest : List Byte) (hb : 16 < b)
    (hlen : 0 < hi * 256 + lo) :
    NodeInfo.decode_internal (2 :: hi :: lo :: b :: rest)
      = .error (.Parse "Invalid address length") ∧
    NodeInfo.decode (2 :: hi :: lo :: b :: rest)
      = .error (.Message "Input data too short") := by
  have hne : hi * 256 + lo ≠ 0 := by omega
  have h1 : NodeInfo.decode_internal (2 :: hi :: lo :: b :: rest)
      = .error (.Parse "Invalid address length") := by
    unfold NodeInfo.decode_internal
    generalize (2 :: hi :: lo :: b :: rest).length = G
    simp only [NodeInfo.decode_internal_go]
    rw [if_neg (by decide : ¬((2 : Byte) = 0)), if_neg (by decide : ¬((2 : Byte) = 1)),
      if_pos trivial]
    simp only [NodeInfo.decode_claims_part]
    rw [if_neg hne]
    unfold Range.read_from
    have hread : Take.readU8 ⟨hi * 256 + lo, b :: rest⟩
        = some (b, ⟨hi * 256 + lo - 1, rest⟩) := by
      simp [Take.readU8, hne]
    simp only [hread]
    rw [if_pos hb]
  refine ⟨h1, ?_⟩
  unfold NodeInfo.decode
  rw [h1]

/-- Witness for C3 (amended): the malformed length byte 17 inside a claims
part of declared length 2. -/
theorem claim_C3_witness :
    (16 < 17 ∧ 0 < 0 * 256 + 2) ∧
    NodeInfo.decode_internal [2, 0, 2, 17, 7] = .error (.Parse "Invalid address length") ∧
    NodeInfo.decode [2, 0, 2, 17, 7] = .error (.Message "Input data too short") :=
  ⟨⟨by decide, by decide⟩, claim_C3 17 0 2 [7] (by decide) (by decide)⟩

end ClaimC3

section ClaimC5

/-- Claim C5: a part with an unrecognized tag, a correct 2-byte length and
arbitrary body bytes is skipped exactly: at any decoder state it leaves the
accumulators untouched and resumes after the part, and prepending such a
part to any message leaves the result of decode unchanged. -/
theorem claim_C5 (tag hi lo : Nat) (body msg : List Byte)
    (h0 : tag ≠ 0) (h1 : tag ≠ 1) (h2 : tag ≠ 2) (h3 : tag ≠ 3)
    (hlen : body.length = hi * 256 + lo) :
    (∀ (fuel : Nat) (a : List PeerInfo) (b : List Range) (c : Option Nat),
      NodeInfo.decode_internal_go (fuel + 1) (tag :: hi :: lo :: (body ++ msg)) a b c
      = NodeInfo.decode_internal_go fuel msg a b c) ∧
    NodeInfo.decode (tag :: hi :: lo :: (body ++ msg)) = NodeInfo.decode msg := by
  constructor
  · intro fuel a b c
    exact NodeInfo.decode_go_unknown_step tag hi lo body h0 h1 h2 h3 hlen fuel msg a b c
  · unfold NodeInfo.decode NodeInfo.decode_internal
    have hs := NodeInfo.decode_go_unknown_step tag hi lo body h0 h1 h2 h3 hlen
      ((tag :: hi :: lo :: (body ++ msg)).length) msg [] [] none
    have hlt : msg.length < (tag :: hi :: lo :: (body ++ msg)).length := by
      simp
      omega
    have hm := @NodeInfo.decode_internal_go_fuel
      ((tag :: hi :: lo :: (body ++ msg)).length) msg (msg.length + 1) [] [] none
      hlt (Nat.lt_succ_self _)
    rw [hs, hm]

/-- Witness for C5: an unknown tag 5 with one body byte in front of the
empty message. -/
theorem claim_C5_witness :
    ((5 : Nat) ≠ 0 ∧ (5 : Nat) ≠ 1 ∧ (5 : Nat) ≠ 2 ∧ (5 : Nat) ≠ 3 ∧
      ([99] : List Byte).length = 0 * 256 + 1) ∧
    NodeInfo.decode [5, 0, 1, 99, 0] = NodeInfo.decode [0] := by
  refine ⟨by decide, ?_⟩
  exact (claim_C5 5 0 1 [99] [0] (by decide) (by decide) (by decide) (by decide)
    (by decide)).2

end ClaimC5

section ClaimC10

/-- Claim C10: when a message contains two parts for each recognized tag
(peers, claims, peer-timeout), each individually well-formed, decode
succeeds and each field holds the value of the last part with that tag;
the earlier values are discarded. -/
theorem claim_C10 (ps1 ps2 : List PeerInfo) (cs1 cs2 : List Range) (t1 t2 : Nat)
    (hps1 : ∀ p ∈ ps1, p.wf) (hps2 : ∀ p ∈ ps2, p.wf)
    (hcs1 : ∀ r ∈ cs1, r.wf) (hcs2 : ∀ r ∈ cs2, r.wf)
    (hl1 : (NodeInfo.encode_peer_list_part ps1).length ≤ 65535)
    (hl2 : (NodeInfo.encode_peer_list_part ps2).length ≤ 65535)
    (hl3 : (NodeInfo.encode_claims_part cs1).length ≤ 65535)
    (hl4 : (NodeInfo.encode_claims_part cs2).length ≤ 65535)
    (ht1 : t1 < 65536) (ht2 : t2 < 65536) :
    NodeInfo.decode
      (NodeInfo.encodePart 1 (NodeInfo.encode_peer_list_part ps1) ++
        (NodeInfo.encodePart 1 (NodeInfo.encode_peer_list_part ps2) ++
          (NodeInfo.encodePart 2 (NodeInfo.encode_claims_part cs1) ++
            (NodeInfo.encodePart 2 (NodeInfo.encode_claims_part cs2) ++
              (NodeInfo.encodePart 3 (write_u16 t1) ++
                (NodeInfo.encodePart 3 (write_u16 t2) ++ [0]))))))
    = .ok ⟨ps2.map normalizePeer, cs2, some t2⟩ := by
  unfold NodeInfo.decode NodeInfo.decode_internal
  generalize hL : (NodeInfo.encodePart 1 (NodeInfo.encode_peer_list_part ps1) ++
    (NodeInfo.encodePart 1 (NodeInfo.encode_peer_list_part ps2) ++
      (NodeInfo.encodePart 2 (NodeInfo.encode_claims_part cs1) ++
        (NodeInfo.encodePart 2 (NodeInfo.encode_claims_part cs2) ++
          (NodeInfo.encodePart 3 (write_u16 t1) ++
            (NodeInfo.encodePart 3 (write_u16 t2) ++ [0])))))).length = L
  have hL6 : 6 ≤ L := by
    rw [← hL]
    simp only [List.length_append, NodeInfo.length_encodePart, List.length_cons,
      List.length_nil]
    omega
  obtain ⟨m, hm⟩ : ∃ m, L + 1 = m + 7 := ⟨L - 6, by omega⟩
  rw [hm, show m + 7 = m + 6 + 1 from rfl]
  rw [NodeInfo.decode_go_peers_step ps1 hps1 hl1 (m + 6)]
  rw [show m + 6 = m + 5 + 1 from rfl]
  rw [NodeInfo.decode_go_peers_step ps2 hps2 hl2 (m + 5)]
  rw [show m + 5 = m + 4 + 1 from rfl]
  rw [NodeInfo.decode_go_claims_step cs1 hcs1 hl3 (m + 4)]
  rw [show m + 4 = m + 3 + 1 from rfl]
  rw [NodeInfo.decode_go_claims_step cs2 hcs2 hl4 (m + 3)]
  rw [show m + 3 = m + 2 + 1 from rfl]
  rw [NodeInfo.decode_go_timeout_step t1 ht1 (m + 2)]
  rw [show m + 2 = m + 1 + 1 from rfl]
  rw [NodeInfo.decode_go_timeout_step t2 ht2 (m + 1)]
  rw [show ([0] : List Byte) = 0 :: [] from rfl, NodeInfo.decode_go_end m]

/-- Witness for C10: duplicated peers, claims and timeout parts; the last
of each wins. -/
theorem claim_C10_witness :
    NodeInfo.decode [1, 0, 0, 1, 0, 1, 0, 2, 0, 0, 2, 0, 3, 1, 1, 0, 3, 0, 2, 0, 1,
      3, 0, 2, 0, 2, 0]
    = .ok ⟨[⟨none, []⟩], [⟨[1], 0⟩], some 2⟩ := by
  have h := claim_C10 [] [⟨none, []⟩] [] [⟨[1], 0⟩] 1 2
    (by decide) (by decide) (by decide) (by decide)
    (by decide) (by decide) (by decide) (by decide) (by decide) (by decide)
  exact h.trans (by decide)

end ClaimC10

section ClaimC4

/-- An IPv6 address is not an IPv4 address. -/
theorem SocketAddr.isV4_eq_false_of_isV6 (a : SocketAddr) (h : a.isV6 = true) :
    a.isV4 = false := by
  cases a <;> simp_all [SocketAddr.isV4, SocketAddr.isV6]

/-- An IPv4 address is not an IPv6 address. -/
theorem SocketAddr.isV6_eq_false_of_isV4 (a : SocketAddr) (h : a.isV4 = true) :
    a.isV6 = false := by
  cases a <;> simp_all [SocketAddr.isV4, SocketAddr.isV6]

/-- The IPv4 addresses of a normalized peer are the first seven IPv4
addresses of the original peer, in order. -/
theorem filter_isV4_normalizePeer (p : PeerInfo) :
    (normalizePeer p).addrs.filter SocketAddr.isV4
    = (p.addrs.filter SocketAddr.isV4).take 7 := by
  unfold normalizePeer
  simp only
  rw [List.filter_append]
  have h1 : ((p.addrs.filter SocketAddr.isV6).take 7).filter SocketAddr.isV4 = [] := by
    rw [List.filter_eq_nil_iff]
    intro a ha
    have h6 := List.of_mem_filter (List.mem_of_mem_take ha)
    simp [SocketAddr.isV4_eq_false_of_isV6 a h6]
  have h2 : ((p.addrs.filter SocketAddr.isV4).take 7).filter SocketAddr.isV4
      = (p.addrs.filter SocketAddr.isV4).take 7 := by
    rw [List.filter_eq_self]
    intro a ha
    exact List.of_mem_filter (List.mem_of_mem_take ha)
  rw [h1, h2, List.nil_append]

/-- The IPv6 addresses of a normalized peer are the first seven IPv6
addresses of the original peer, in order. -/
theorem filter_isV6_normalizePeer (p : PeerInfo) :
    (normalizePeer p).addrs.filter SocketAddr.isV6
    = (p.addrs.filter SocketAddr.isV6).take 7 := by
  unfold normalizePeer
  simp only
  rw [List.filter_append]
  have h1 : ((p.addrs.filter SocketAddr.isV4).take 7).filter SocketAddr.isV6 = [] := by
    rw [List.filter_eq_nil_iff]
    intro a ha
    have h4 := List.of_mem_filter (List.mem_of_mem_take ha)
    simp [SocketAddr.isV6_eq_false_of_isV4 a h4]
  have h2 : ((p.addrs.filter SocketAddr.isV6).take 7).filter SocketAddr.isV6
      = (p.addrs.filter SocketAddr.isV6).take 7 := by
    rw [List.filter_eq_self]
    intro a ha
    exact List.of_mem_filter (List.mem_of_mem_take ha)
  rw [h1, h2, List.append_nil]

/-- Indexing a mapped peer list within bounds applies the map to the
indexed element. -/
theorem getD_map_normalizePeer (l : List PeerInfo) (j : Nat) (hj : j < l.length) :
    (l.map normalizePeer).getD j ⟨none, []⟩ = normalizePeer (l.getD j ⟨none, []⟩) := by
  rw [List.getD_eq_getElem?_getD, List.getD_eq_getElem?_getD, List.getElem?_map,
    List.getElem?_eq_getElem hj]
  simp

/-- Claim C4 (amended): for every well-formed NodeInfo whose encoded part
bodies fit the 16-bit length fields, encoding always succeeds, and decoding
the encoding yields for every peer exactly the first seven addresses of
each family in their original insertion order, the excess dropped from the
tail. -/
theorem claim_C4 (x : NodeInfo) (hwf : x.wf)
    (hp : (NodeInfo.encode_peer_list_part x.peers).length ≤ 65535)
    (hc : (NodeInfo.encode_claims_part x.claims).length ≤ 65535)
    (i : Nat) (hi : i < x.peers.length)
    (hmany : 7 < ((x.peers.getD i ⟨none, []⟩).addrs.filter SocketAddr.isV4).length ∨
             7 < ((x.peers.getD i ⟨none, []⟩).addrs.filter SocketAddr.isV6).length) :
    ∃ y, NodeInfo.decode (NodeInfo.encode x) = .ok y ∧
      y.peers.length = x.peers.length ∧
      ∀ j, (y.peers.getD j ⟨none, []⟩).addrs.filter SocketAddr.isV4
          = ((x.peers.getD j ⟨none, []⟩).addrs.filter SocketAddr.isV4).take 7 ∧
        (y.peers.getD j ⟨none, []⟩).addrs.filter SocketAddr.isV6
          = ((x.peers.getD j ⟨none, []⟩).addrs.filter SocketAddr.isV6).take 7 := by
  refine ⟨⟨x.peers.map normalizePeer, x.claims, x.peer_timeout⟩,
    NodeInfo.decode_encode_normal x hwf hp hc, by simp, ?_⟩
  intro j
  by_cases hj : j < x.peers.length
  · simp only
    rw [getD_map_normalizePeer x.peers j hj]
    exact ⟨filter_isV4_normalizePeer _, filter_isV6_normalizePeer _⟩
  · simp only
    rw [List.getD_eq_default _ _ (by simpa using Nat.le_of_not_lt hj),
      List.getD_eq_default _ _ (Nat.le_of_not_lt hj)]
    constructor <;> rfl

/-- Encoding a run of empty peers yields one zero flags byte per peer. -/
theorem encode_replicate_empty (n : Nat) :
    NodeInfo.encode_peer_list_part (List.replicate n ⟨none, []⟩) = List.replicate n 0 := by
  induction n with
  | zero => simp [NodeInfo.encode_peer_list_part]
  | succ n ih =>
    rw [List.replicate_succ, List.replicate_succ]
    have hstep : NodeInfo.encode_peer_list_part (⟨none, []⟩ :: List.replicate n ⟨none, []⟩)
        = NodeInfo.encode_peer ⟨none, []⟩ ++
          NodeInfo.encode_peer_list_part (List.replicate n ⟨none, []⟩) := by
      simp [NodeInfo.encode_peer_list_part]
    rw [hstep, ih, show NodeInfo.encode_peer ⟨none, []⟩ = [0] from rfl]
    rfl

/-- Decoding a bounded region of k zero flags bytes yields k empty peers
and stops at the region boundary, leaving the remaining zeros in the
stream. -/
theorem decode_replicate_zero :
    ∀ (k m : Nat), k ≤ m → ∀ (fuel : Nat), k ≤ fuel → ∀ (rest : List Byte),
      NodeInfo.decode_peer_list_part fuel ⟨k, List.replicate m 0 ++ rest⟩
      = some (List.replicate k ⟨none, []⟩, ⟨0, List.replicate (m - k) 0 ++ rest⟩) := by
  intro k
  induction k with
  | zero =>
    intro m _ fuel _ rest
    cases fuel <;> simp [NodeInfo.decode_peer_list_part]
  | succ k ih =>
    intro m hkm fuel hf rest
    cases fuel with
    | zero => omega
    | succ f =>
      obtain ⟨m', rfl⟩ : ∃ m', m = m' + 1 := ⟨m - 1, by omega⟩
      rw [List.replicate_succ, List.cons_append]
      simp only [NodeInfo.decode_peer_list_part]
      rw [if_neg (Nat.succ_ne_zero k), Take.readU8_cons]
      simp only [Option.bind_eq_bind, Option.some_bind]
      unfold NodeInfo.read_node_id
      rw [if_neg (by decide)]
      simp only [Option.some_bind]
      rw [show Nat.land 0 0x38 / 8 = 0 from by decide, show Nat.land 0 0x07 = 0 from by decide]
      simp only [NodeInfo.read_ipv6_addrs, NodeInfo.read_ipv4_addrs, Option.some_bind]
      rw [ih m' (by omega) f (by omega) rest]
      simp only [Option.some_bind]
      simp [List.replicate_succ, Nat.succ_sub_succ]

/-- A peer with eight IPv4 addresses. -/
def bigPeer : PeerInfo :=
  ⟨none, [SocketAddr.v4 [10, 0, 0, 1] 1, SocketAddr.v4 [10, 0, 0, 2] 2,
          SocketAddr.v4 [10, 0, 0, 3] 3, SocketAddr.v4 [10, 0, 0, 4] 4,
          SocketAddr.v4 [10, 0, 0, 5] 5, SocketAddr.v4 [10, 0, 0, 6] 6,
          SocketAddr.v4 [10, 0, 0, 7] 7, SocketAddr.v4 [10, 0, 0, 8] 8]⟩

/-- Append normalization used to put the encoded big message in head form. -/
theorem app_norm_c4 (R E : List Byte) :
    1 :: ([0, 43] ++ (R ++ E)) ++ (2 :: ([0, 0] ++ []) ++ ([] ++ [0]))
    = 1 :: 0 :: 43 :: (R ++ (E ++ [2, 0, 0, 0])) := by
  simp

/-- Decoding a message whose peers part declares only 43 of its at least
44 zero body bytes: the decoder reads 43 empty peers, then the 44th zero
byte is taken as the terminator tag and everything after is ignored. -/
theorem decode_wrapped_peers (m : Nat) (h43 : 43 < m) (tail : List Byte) :
    NodeInfo.decode (1 :: 0 :: 43 :: (List.replicate m 0 ++ tail))
    = .ok ⟨List.replicate 43 ⟨none, []⟩, [], none⟩ := by
  unfold NodeInfo.decode NodeInfo.decode_internal
  generalize hG : (1 :: 0 :: 43 :: (List.replicate m 0 ++ tail)).length = G
  have hG1 : 1 ≤ G := by
    rw [← hG]
    simp only [List.length_cons]
    omega
  simp only [NodeInfo.decode_internal_go]
  rw [if_neg (by decide : ¬((1 : Byte) = 0)), if_pos trivial]
  rw [show (0 : Nat) * 256 + 43 = 43 from by norm_num]
  simp only [decode_replicate_zero 43 m (by omega) (43 + 1) (by omega) tail]
  obtain ⟨m1, hm1⟩ : ∃ m1, m - 43 = m1 + 1 := ⟨m - 44, by omega⟩
  rw [hm1, List.replicate_succ, List.cons_append]
  obtain ⟨F, rfl⟩ : ∃ F, G = F + 1 := ⟨G - 1, by omega⟩
  rw [NodeInfo.decode_go_end]

/-- The encoding of 65536 empty peers followed by the eight-address peer:
the peers body is 65579 bytes and its u16 length field wraps to 43. -/
theorem encode_c4_big :
    NodeInfo.encode ⟨List.replicate 65536 ⟨none, []⟩ ++ [bigPeer], [], none⟩
      = 1 :: 0 :: 43 :: (List.replicate 65536 0 ++
          (NodeInfo.encode_peer bigPeer ++ [2, 0, 0, 0])) := by
  have hbig : (NodeInfo.encode_peer bigPeer).length = 43 := by decide
  have hB : NodeInfo.encode_peer_list_part (List.replicate 65536 ⟨none, []⟩ ++ [bigPeer])
      = List.replicate 65536 0 ++ NodeInfo.encode_peer bigPeer := by
    unfold NodeInfo.encode_peer_list_part
    rw [List.flatMap_append]
    rw [show (List.replicate 65536 (⟨none, []⟩ : PeerInfo)).flatMap NodeInfo.encode_peer
        = NodeInfo.encode_peer_list_part (List.replicate 65536 ⟨none, []⟩) from rfl,
      encode_replicate_empty, List.flatMap_cons, List.flatMap_nil, List.append_nil]
  have hBlen : (List.replicate 65536 (0 : Byte) ++ NodeInfo.encode_peer bigPeer).length
      = 65579 := by
    rw [List.length_append, List.length_replicate, hbig]
  have hw : write_u16 65579 = [0, 43] := by decide
  simp only [NodeInfo.encode]
  rw [hB]
  simp only [NodeInfo.encodePart]
  rw [hBlen, hw]
  rw [show NodeInfo.encode_claims_part [] = [] from rfl]
  rw [show write_u16 ([] : List Byte).length = [0, 0] from by decide]
  exact app_norm_c4 (List.replicate 65536 0) (NodeInfo.encode_peer bigPeer)

/-- Counterexample to C4 as stated: a NodeInfo holding 65536 empty peers
followed by a peer with eight IPv4 addresses.  The peers body is 65579
bytes, the u16 length field wraps to 43, and decoding the encoding returns
43 empty peers: the peer with more than 7 addresses of one family is not
decoded at all, let alone with its first seven addresses. -/
theorem claim_C4_counterexample :
    7 < (bigPeer.addrs.filter SocketAddr.isV4).length ∧
    NodeInfo.decode (NodeInfo.encode ⟨List.replicate 65536 ⟨none, []⟩ ++ [bigPeer], [], none⟩)
      = .ok ⟨List.replicate 43 ⟨none, []⟩, [], none⟩ := by
  refine ⟨by decide, ?_⟩
  rw [encode_c4_big]
  exact decode_wrapped_peers 65536 (by omega)
    (NodeInfo.encode_peer bigPeer ++ [2, 0, 0, 0])

/-- A NodeInfo with one peer holding eight IPv4 addresses. -/
def c4w : NodeInfo := ⟨[bigPeer], [], none⟩

/-- Witness for C4 (amended): the peer with eight IPv4 addresses keeps its
first seven, in order, after the round trip. -/
theorem claim_C4_witness :
    7 < ((c4w.peers.getD 0 ⟨none, []⟩).addrs.filter SocketAddr.isV4).length ∧
    ∃ y, NodeInfo.decode (NodeInfo.encode c4w) = .ok y ∧
      y.peers.length = c4w.peers.length ∧
      ∀ j, (y.peers.getD j ⟨none, []⟩).addrs.filter SocketAddr.isV4
          = ((c4w.peers.getD j ⟨none, []⟩).addrs.filter SocketAddr.isV4).take 7 ∧
        (y.peers.getD j ⟨none, []⟩).addrs.filter SocketAddr.isV6
          = ((c4w.peers.getD j ⟨none, []⟩).addrs.filter SocketAddr.isV6).take 7 :=
  ⟨by decide, claim_C4 c4w (by decide) (by decide) (by decide) 0 (by decide)
    (Or.inl (by decide))⟩

end ClaimC4

section ClaimC6

/-- The decoder fails on empty input (a tag byte cannot be read). -/
theorem NodeInfo.decode_go_nil (fuel : Nat) (a : List PeerInfo) (b : List Range)
    (c : Option Nat) :
    NodeInfo.decode_internal_go (fuel + 1) [] a b c = .error (.Message "Truncated message") := by
  simp [NodeInfo.decode_internal_go]

/-- Any proper prefix of an encoded peers part fails to decode: the header
is incomplete, or the bounded region is declared longer than the bytes that
are left. -/
theorem NodeInfo.truncated_peers_part (B : List Byte) (hl : B.length ≤ 65535)
    (k : Nat) (hk1 : 1 ≤ k) (hk2 : k < 3 + B.length)
    (fuel : Nat) (a : List PeerInfo) (b : List Range) (c : Option Nat) :
    NodeInfo.decode_internal_go (fuel + 1) ((NodeInfo.encodePart 1 B).take k) a b c
      = .error (.Message "Truncated message") := by
  unfold NodeInfo.encodePart
  by_cases hke1 : k = 1
  · subst hke1
    rw [show (1 : Nat) = 0 + 1 from rfl, List.take_succ_cons, List.take_zero]
    simp [NodeInfo.decode_internal_go]
  · by_cases hke2 : k = 2
    · subst hke2
      rw [show write_u16 B.length ++ B
          = B.length % 65536 / 256 :: (B.length % 256 :: B) from by
            simp [write_u16]]
      rw [show (2 : Nat) = 1 + 1 from rfl, List.take_succ_cons,
        show (1 : Nat) = 0 + 1 from rfl, List.take_succ_cons, List.take_zero]
      simp [NodeInfo.decode_internal_go]
    · obtain ⟨k3, rfl⟩ : ∃ k3, k = k3 + 3 := ⟨k - 3, by omega⟩
      rw [show write_u16 B.length ++ B
          = B.length % 65536 / 256 :: (B.length % 256 :: B) from by
            simp [write_u16]]
      rw [show k3 + 3 = (k3 + 2) + 1 from rfl, List.take_succ_cons,
        show k3 + 2 = (k3 + 1) + 1 from rfl, List.take_succ_cons,
        List.take_succ_cons]
      have hpl : B.length % 65536 / 256 * 256 + B.length % 256 = B.length := by omega
      simp only [NodeInfo.decode_internal_go]
      rw [if_neg (by decide : ¬((1 : Byte) = 0)), if_pos trivial, hpl]
      have hnone : NodeInfo.decode_peer_list_part (B.length + 1)
          ⟨B.length, B.take k3⟩ = none := by
        cases hres : NodeInfo.decode_peer_list_part (B.length + 1) ⟨B.length, B.take k3⟩ with
        | none => rfl
        | some v =>
          exfalso
          obtain ⟨ps, t⟩ := v
          have hspec := NodeInfo.decode_peer_list_part_spec hres
          simp only [List.length_take] at hspec
          omega
      rw [hnone]

/-- Any proper prefix of an encoded claims part fails to decode. -/
theorem NodeInfo.truncated_claims_part (B : List Byte) (hl : B.length ≤ 65535)
    (k : Nat) (hk1 : 1 ≤ k) (hk2 : k < 3 + B.length)
    (fuel : Nat) (a : List PeerInfo) (b : List Range) (c : Option Nat) :
    ∃ e, NodeInfo.decode_internal_go (fuel + 1) ((NodeInfo.encodePart 2 B).take k) a b c
      = .error e := by
  unfold NodeInfo.encodePart
  by_cases hke1 : k = 1
  · subst hke1
    rw [show (1 : Nat) = 0 + 1 from rfl, List.take_succ_cons, List.take_zero]
    exact ⟨.Message "Truncated message", by simp [NodeInfo.decode_internal_go]⟩
  · by_cases hke2 : k = 2
    · subst hke2
      rw [show write_u16 B.length ++ B
          = B.length % 65536 / 256 :: (B.length % 256 :: B) from by
            simp [write_u16]]
      rw [show (2 : Nat) = 1 + 1 from rfl, List.take_succ_cons,
        show (1 : Nat) = 0 + 1 from rfl, List.take_succ_cons, List.take_zero]
      exact ⟨.Message "Truncated message", by simp [NodeInfo.decode_internal_go]⟩
    · obtain ⟨k3, rfl⟩ : ∃ k3, k = k3 + 3 := ⟨k - 3, by omega⟩
      rw [show write_u16 B.length ++ B
          = B.length % 65536 / 256 :: (B.length % 256 :: B) from by
            simp [write_u16]]
      rw [show k3 + 3 = (k3 + 2) + 1 from rfl, List.take_succ_cons,
        show k3 + 2 = (k3 + 1) + 1 from rfl, List.take_succ_cons,
        List.take_succ_cons]
      have hpl : B.length % 65536 / 256 * 256 + B.length % 256 = B.length := by omega
      cases hres : NodeInfo.decode_claims_part (B.length + 1) ⟨B.length, B.take k3⟩ with
      | error e =>
        refine ⟨e, ?_⟩
        simp only [NodeInfo.decode_internal_go]
        rw [if_neg (by decide : ¬((2 : Byte) = 0)), if_neg (by decide : ¬((2 : Byte) = 1)),
          if_pos trivial, hpl, hres]
      | ok v =>
        exfalso
        obtain ⟨cs, t⟩ := v
        have hspec := NodeInfo.decode_claims_part_spec hres
        simp only [List.length_take] at hspec
        omega

/-- Any proper prefix of an encoded peer-timeout part fails to decode. -/
theorem NodeInfo.truncated_timeout_part (v : Nat)
    (k : Nat) (hk1 : 1 ≤ k) (hk2 : k < 5)
    (fuel : Nat) (a : List PeerInfo) (b : List Range) (c : Option Nat) :
    NodeInfo.decode_internal_go (fuel + 1) ((NodeInfo.encodePart 3 (write_u16 v)).take k) a b c
      = .error (.Message "Truncated message") := by
  have hform : NodeInfo.encodePart 3 (write_u16 v)
      = 3 :: 0 :: 2 :: (v % 65536 / 256) :: (v % 256) :: [] := by
    norm_num [NodeInfo.encodePart, write_u16]
  rw [hform]
  interval_cases k
  · rw [show (1 : Nat) = 0 + 1 from rfl, List.take_succ_cons, List.take_zero]
    simp [NodeInfo.decode_internal_go]
  · rw [show (2 : Nat) = 1 + 1 from rfl, List.take_succ_cons,
      show (1 : Nat) = 0 + 1 from rfl, List.take_succ_cons, List.take_zero]
    simp [NodeInfo.decode_internal_go]
  · rw [show (3 : Nat) = 2 + 1 from rfl, List.take_succ_cons,
      show (2 : Nat) = 1 + 1 from rfl, List.take_succ_cons,
      show (1 : Nat) = 0 + 1 from rfl, List.take_succ_cons, List.take_zero]
    simp only [NodeInfo.decode_internal_go]
    rw [if_neg (by decide : ¬((3 : Byte) = 0)), if_neg (by decide : ¬((3 : Byte) = 1)),
      if_neg (by decide : ¬((3 : Byte) = 2)), if_pos trivial]
    rfl
  · rw [show (4 : Nat) = 3 + 1 from rfl, List.take_succ_cons,
      show (3 : Nat) = 2 + 1 from rfl, List.take_succ_cons,
      show (2 : Nat) = 1 + 1 from rfl, List.take_succ_cons,
      show (1 : Nat) = 0 + 1 from rfl, List.take_succ_cons, List.take_zero]
    simp only [NodeInfo.decode_internal_go]
    rw [if_neg (by decide : ¬((3 : Byte) = 0)), if_neg (by decide : ¬((3 : Byte) = 1)),
      if_neg (by decide : ¬((3 : Byte) = 2)), if_pos trivial]
    rfl

end ClaimC6

/-- Claim C6 (amended): for every well-formed NodeInfo whose encoded part
bodies fit the 16-bit length fields, every proper non-empty prefix of the
encoded message fails to decode, and the failure reported by decode is the
generic truncation error. -/
theorem claim_C6 (x : NodeInfo) (hwf : x.wf)
    (hp : (NodeInfo.encode_peer_list_part x.peers).length ≤ 65535)
    (hc : (NodeInfo.encode_claims_part x.claims).length ≤ 65535)
    (k : Nat) (hk1 : 1 ≤ k) (hk2 : k < (NodeInfo.encode x).length) :
    NodeInfo.decode ((NodeInfo.encode x).take k) = .error (.Message "Input data too short") := by
  obtain ⟨peers, claims, pt⟩ := x
  obtain ⟨hwp, hwc, hwt⟩ := hwf
  suffices h : ∃ e, NodeInfo.decode_internal
      ((NodeInfo.encode ⟨peers, claims, pt⟩).take k) = .error e by
    obtain ⟨e, he⟩ := h
    unfold NodeInfo.decode
    rw [he]
  have hkle : k ≤ (NodeInfo.encode ⟨peers, claims, pt⟩).length := le_of_lt hk2
  unfold NodeInfo.decode_internal
  rw [show ((NodeInfo.encode ⟨peers, claims, pt⟩).take k).length = k from by
    rw [List.length_take]; omega]
  have hPlen := NodeInfo.length_encodePart 1 (NodeInfo.encode_peer_list_part peers)
  have hClen := NodeInfo.length_encodePart 2 (NodeInfo.encode_claims_part claims)
  cases pt with
  | none =>
    have hform : NodeInfo.encode ⟨peers, claims, none⟩
        = NodeInfo.encodePart 1 (NodeInfo.encode_peer_list_part peers) ++
          (NodeInfo.encodePart 2 (NodeInfo.encode_claims_part claims) ++ [0]) := by
      simp [NodeInfo.encode]
    have hk2' : k < (NodeInfo.encodePart 1 (NodeInfo.encode_peer_list_part peers)).length +
        ((NodeInfo.encodePart 2 (NodeInfo.encode_claims_part claims)).length + 1) := by
      have hx := hk2
      rw [hform] at hx
      simpa using hx
    rw [hform]
    by_cases hkP : k < (NodeInfo.encodePart 1 (NodeInfo.encode_peer_list_part peers)).length
    · have hsplit : (NodeInfo.encodePart 1 (NodeInfo.encode_peer_list_part peers) ++
          (NodeInfo.encodePart 2 (NodeInfo.encode_claims_part claims) ++ [0])).take k
          = (NodeInfo.encodePart 1 (NodeInfo.encode_peer_list_part peers)).take k := by
        rw [List.take_append_eq_append_take, show k -
          (NodeInfo.encodePart 1 (NodeInfo.encode_peer_list_part peers)).length = 0 from by
            omega]
        simp
      rw [hsplit]
      exact ⟨.Message "Truncated message",
        NodeInfo.truncated_peers_part (NodeInfo.encode_peer_list_part peers) hp
          k hk1 (by omega) k [] [] none⟩
    · push_neg at hkP
      have hsplit : (NodeInfo.encodePart 1 (NodeInfo.encode_peer_list_part peers) ++
          (NodeInfo.encodePart 2 (NodeInfo.encode_claims_part claims) ++ [0])).take k
          = NodeInfo.encodePart 1 (NodeInfo.encode_peer_list_part peers) ++
            ((NodeInfo.encodePart 2 (NodeInfo.encode_claims_part claims) ++ [0]).take
              (k - (NodeInfo.encodePart 1 (NodeInfo.encode_peer_list_part peers)).length)) := by
        rw [List.take_append_eq_append_take, List.take_of_length_le hkP]
      rw [hsplit]
      rw [NodeInfo.decode_go_peers_step peers hwp hp k]
      by_cases hkC0 : k -
          (NodeInfo.encodePart 1 (NodeInfo.encode_peer_list_part peers)).length = 0
      · rw [hkC0, List.take_zero]
        obtain ⟨k₁, rfl⟩ : ∃ k₁, k = k₁ + 1 := ⟨k - 1, by omega⟩
        exact ⟨_, NodeInfo.decode_go_nil k₁ _ _ _⟩
      · by_cases hkC : k -
            (NodeInfo.encodePart 1 (NodeInfo.encode_peer_list_part peers)).length <
            (NodeInfo.encodePart 2 (NodeInfo.encode_claims_part claims)).length
        · have hsplit2 : (NodeInfo.encodePart 2 (NodeInfo.encode_claims_part claims) ++ [0]).take
              (k - (NodeInfo.encodePart 1 (NodeInfo.encode_peer_list_part peers)).length)
              = (NodeInfo.encodePart 2 (NodeInfo.encode_claims_part claims)).take
                (k - (NodeInfo.encodePart 1
                  (NodeInfo.encode_peer_list_part peers)).length) := by
            rw [List.take_append_eq_append_take, show k -
              (NodeInfo.encodePart 1 (NodeInfo.encode_peer_list_part peers)).length -
              (NodeInfo.encodePart 2 (NodeInfo.encode_claims_part claims)).length = 0 from by
                omega]
            simp
          rw [hsplit2]
          obtain ⟨k₁, rfl⟩ : ∃ k₁, k = k₁ + 1 := ⟨k - 1, by omega⟩
          obtain ⟨e, he⟩ := NodeInfo.truncated_claims_part
            (NodeInfo.encode_claims_part claims) hc
            (k₁ + 1 - (NodeInfo.encodePart 1 (NodeInfo.encode_peer_list_part peers)).length)
            (by omega) (by omega) k₁ (peers.map normalizePeer) [] none
          exact ⟨e, he⟩
        · have hkEq : k -
              (NodeInfo.encodePart 1 (NodeInfo.encode_peer_list_part peers)).length
              = (NodeInfo.encodePart 2 (NodeInfo.encode_claims_part claims)).length := by
            omega
          have hsplit2 : (NodeInfo.encodePart 2 (NodeInfo.encode_claims_part claims) ++ [0]).take
              (k - (NodeInfo.encodePart 1 (NodeInfo.encode_peer_list_part peers)).length)
              = NodeInfo.encodePart 2 (NodeInfo.encode_claims_part claims) ++ [] := by
            rw [List.take_append_eq_append_take, hkEq, List.take_of_length_le (le_refl _)]
            simp
          rw [hsplit2]
          obtain ⟨k₁, rfl⟩ : ∃ k₁, k = k₁ + 1 := ⟨k - 1, by omega⟩
          rw [NodeInfo.decode_go_claims_step claims hwc hc k₁]
          obtain ⟨k₂, rfl⟩ : ∃ k₂, k₁ = k₂ + 1 := ⟨k₁ - 1, by omega⟩
          exact ⟨_, NodeInfo.decode_go_nil k₂ _ _ _⟩
  | some v =>
    have hv : v < 65536 := by simpa [NodeInfo.wfTimeout] using hwt
    have hTlen : (NodeInfo.encodePart 3 (write_u16 v)).length = 5 := by
      rw [NodeInfo.length_encodePart, length_write_u16]
    have hform : NodeInfo.encode ⟨peers, claims, some v⟩
        = NodeInfo.encodePart 1 (NodeInfo.encode_peer_list_part peers) ++
          (NodeInfo.encodePart 2 (NodeInfo.encode_claims_part claims) ++
            (NodeInfo.encodePart 3 (write_u16 v) ++ [0])) := by
      simp [NodeInfo.encode]
    have hk2' : k < (NodeInfo.encodePart 1 (NodeInfo.encode_peer_list_part peers)).length +
        ((NodeInfo.encodePart 2 (NodeInfo.encode_claims_part claims)).length + 6) := by
      have hx := hk2
      rw [hform] at hx
      simp only [List.length_append, hTlen, List.length_cons, List.length_nil] at hx
      omega
    rw [hform]
    by_cases hkP : k < (NodeInfo.encodePart 1 (NodeInfo.encode_peer_list_part peers)).length
    · have hsplit : (NodeInfo.encodePart 1 (NodeInfo.encode_peer_list_part peers) ++
          (NodeInfo.encodePart 2 (NodeInfo.encode_claims_part claims) ++
            (NodeInfo.encodePart 3 (write_u16 v) ++ [0]))).take k
          = (NodeInfo.encodePart 1 (NodeInfo.encode_peer_list_part peers)).take k := by
        rw [List.take_append_eq_append_take, show k -
          (NodeInfo.encodePart 1 (NodeInfo.encode_peer_list_part peers)).length = 0 from by
            omega]
        simp
      rw [hsplit]
      exact ⟨.Message "Truncated message",
        NodeInfo.truncated_peers_part (NodeInfo.encode_peer_list_part peers) hp
          k hk1 (by omega) k [] [] none⟩
    · push_neg at hkP
      have hsplit : (NodeInfo.encodePart 1 (NodeInfo.encode_peer_list_part peers) ++
          (NodeInfo.encodePart 2 (NodeInfo.encode_claims_part claims) ++
            (NodeInfo.encodePart 3 (write_u16 v) ++ [0]))).take k
          = NodeInfo.encodePart 1 (NodeInfo.encode_peer_list_part peers) ++
            ((NodeInfo.encodePart 2 (NodeInfo.encode_claims_part claims) ++
              (NodeInfo.encodePart 3 (write_u16 v) ++ [0])).take
              (k - (NodeInfo.encodePart 1 (NodeInfo.encode_peer_list_part peers)).length)) := by
        rw [List.take_append_eq_append_take, List.take_of_length_le hkP]
      rw [hsplit]
      rw [NodeInfo.decode_go_peers_step peers hwp hp k]
      by_cases hkC0 : k -
          (NodeInfo.encodePart 1 (NodeInfo.encode_peer_list_part peers)).length = 0
      · rw [hkC0, List.take_zero]
        obtain ⟨k₁, rfl⟩ : ∃ k₁, k = k₁ + 1 := ⟨k - 1, by omega⟩
        exact ⟨_, NodeInfo.decode_go_nil k₁ _ _ _⟩
      · by_cases hkC : k -
            (NodeInfo.encodePart 1 (NodeInfo.encode_peer_list_part peers)).length <
            (NodeInfo.encodePart 2 (NodeInfo.encode_claims_part claims)).length
        · have hsplit2 : (NodeInfo.encodePart 2 (NodeInfo.encode_claims_part claims) ++
              (NodeInfo.encodePart 3 (write_u16 v) ++ [0])).take
              (k - (NodeInfo.encodePart 1 (NodeInfo.encode_peer_list_part peers)).length)
              = (NodeInfo.encodePart 2 (NodeInfo.encode_claims_part claims)).take
                (k - (NodeInfo.encodePart 1
                  (NodeInfo.encode_peer_list_part peers)).length) := by
            rw [List.take_append_eq_append_take, show k -
              (NodeInfo.encodePart 1 (NodeInfo.encode_peer_list_part peers)).length -
              (NodeInfo.encodePart 2 (NodeInfo.encode_claims_part claims)).length = 0 from by
                omega]
            simp
          rw [hsplit2]
          obtain ⟨k₁, rfl⟩ : ∃ k₁, k = k₁ + 1 := ⟨k - 1, by omega⟩
          obtain ⟨e, he⟩ := NodeInfo.truncated_claims_part
            (NodeInfo.encode_claims_part claims) hc
            (k₁ + 1 - (NodeInfo.encodePart 1 (NodeInfo.encode_peer_list_part peers)).length)
            (by omega) (by omega) k₁ (peers.map normalizePeer) [] none
          exact ⟨e, he⟩
        · have hsplit2 : (NodeInfo.encodePart 2 (NodeInfo.encode_claims_part claims) ++
              (NodeInfo.encodePart 3 (write_u16 v) ++ [0])).take
              (k - (NodeInfo.encodePart 1 (NodeInfo.encode_peer_list_part peers)).length)
              = NodeInfo.encodePart 2 (NodeInfo.encode_claims_part claims) ++
                ((NodeInfo.encodePart 3 (write_u16 v) ++ [0]).take
                  (k -
                    (NodeInfo.encodePart 1 (NodeInfo.encode_peer_list_part peers)).length -
                    (NodeInfo.encodePart 2 (NodeInfo.encode_claims_part claims)).length)) := by
            rw [List.take_append_eq_append_take,
              List.take_of_length_le (by omega)]
          rw [hsplit2]
          obtain ⟨k₁, rfl⟩ : ∃ k₁, k = k₁ + 1 := ⟨k - 1, by omega⟩
          rw [NodeInfo.decode_go_claims_step claims hwc hc k₁]
          by_cases hkT0 : k₁ + 1 -
              (NodeInfo.encodePart 1 (NodeInfo.encode_peer_list_part peers)).length -
              (NodeInfo.encodePart 2 (NodeInfo.encode_claims_part claims)).length = 0
          · rw [hkT0, List.take_zero]
            obtain ⟨k₂, rfl⟩ : ∃ k₂, k₁ = k₂ + 1 := ⟨k₁ - 1, by omega⟩
            exact ⟨_, NodeInfo.decode_go_nil k₂ _ _ _⟩
          · by_cases hkT : k₁ + 1 -
                (NodeInfo.encodePart 1 (NodeInfo.encode_peer_list_part peers)).length -
                (NodeInfo.encodePart 2 (NodeInfo.encode_claims_part claims)).length < 5
            · have hsplit3 : (NodeInfo.encodePart 3 (write_u16 v) ++ [0]).take
                  (k₁ + 1 -
                    (NodeInfo.encodePart 1 (NodeInfo.encode_peer_list_part peers)).length -
                    (NodeInfo.encodePart 2 (NodeInfo.encode_claims_part claims)).length)
                  = (NodeInfo.encodePart 3 (write_u16 v)).take
                    (k₁ + 1 -
                      (NodeInfo.encodePart 1 (NodeInfo.encode_peer_list_part peers)).length -
                      (NodeInfo.encodePart 2 (NodeInfo.encode_claims_part claims)).length) := by
                rw [List.take_append_eq_append_take, show k₁ + 1 -
                  (NodeInfo.encodePart 1 (NodeInfo.encode_peer_list_part peers)).length -
                  (NodeInfo.encodePart 2 (NodeInfo.encode_claims_part claims)).length -
                  (NodeInfo.encodePart 3 (write_u16 v)).length = 0 from by omega]
                simp
              rw [hsplit3]
              obtain ⟨k₂, rfl⟩ : ∃ k₂, k₁ = k₂ + 1 := ⟨k₁ - 1, by omega⟩
              exact ⟨.Message "Truncated message",
                NodeInfo.truncated_timeout_part v _ (by omega) (by omega) k₂
                  (peers.map normalizePeer) claims none⟩
            · have hkEq : k₁ + 1 -
                  (NodeInfo.encodePart 1 (NodeInfo.encode_peer_list_part peers)).length -
                  (NodeInfo.encodePart 2 (NodeInfo.encode_claims_part claims)).length = 5 := by
                omega
              have hsplit3 : (NodeInfo.encodePart 3 (write_u16 v) ++ [0]).take
                  (k₁ + 1 -
                    (NodeInfo.encodePart 1 (NodeInfo.encode_peer_list_part peers)).length -
                    (NodeInfo.encodePart 2 (NodeInfo.encode_claims_part claims)).length)
                  = NodeInfo.encodePart 3 (write_u16 v) ++ [] := by
                rw [List.take_append_eq_append_take, hkEq, show (5 : Nat) -
                  (NodeInfo.encodePart 3 (write_u16 v)).length = 0 from by omega,
                  List.take_of_length_le (by omega)]
                simp
              rw [hsplit3]
              obtain ⟨k₂, rfl⟩ : ∃ k₂, k₁ = k₂ + 1 := ⟨k₁ - 1, by omega⟩
              rw [NodeInfo.decode_go_timeout_step v hv k₂]
              obtain ⟨k₃, rfl⟩ : ∃ k₃, k₂ = k₃ + 1 := ⟨k₂ - 1, by omega⟩
              exact ⟨_, NodeInfo.decode_go_nil k₃ _ _ _⟩

/-- Append normalization used to put the 65536-empty-peer encoding in head
form. -/
theorem app_norm_c6 (R : List Byte) :
    1 :: ([0, 0] ++ R) ++ (2 :: ([0, 0] ++ []) ++ ([] ++ [0]))
    = 1 :: 0 :: 0 :: (R ++ [2, 0, 0, 0]) := by
  simp

/-- The encoding of 65536 empty peers: the peers body is 65536 zero bytes
and its u16 length field wraps to 0. -/
theorem encode_c6 :
    NodeInfo.encode ⟨List.replicate 65536 ⟨none, []⟩, [], none⟩
      = 1 :: 0 :: 0 :: (List.replicate 65536 0 ++ [2, 0, 0, 0]) := by
  have hB : NodeInfo.encode_peer_list_part (List.replicate 65536 ⟨none, []⟩)
      = List.replicate 65536 0 := encode_replicate_empty 65536
  have hBlen : (List.replicate 65536 (0 : Byte)).length = 65536 := by
    rw [List.length_replicate]
  have hw : write_u16 65536 = [0, 0] := by decide
  simp only [NodeInfo.encode]
  rw [hB]
  simp only [NodeInfo.encodePart]
  rw [hBlen, hw]
  rw [show NodeInfo.encode_claims_part [] = [] from rfl]
  rw [show write_u16 ([] : List Byte).length = [0, 0] from by decide]
  exact app_norm_c6 (List.replicate 65536 0)

/-- The first four bytes of that encoding are tag 1, the wrapped zero
length field, and one body byte. -/
theorem take4_c6 (m : Nat) (hm : 1 ≤ m) (tail : List Byte) :
    (1 :: 0 :: 0 :: (List.replicate m (0 : Byte) ++ tail)).take 4 = [1, 0, 0, 0] := by
  obtain ⟨m1, rfl⟩ : ∃ m1, m = m1 + 1 := ⟨m - 1, by omega⟩
  rw [List.replicate_succ, List.cons_append]
  rfl

/-- The length of the head-form encoding, kept symbolic in the replicate
count. -/
theorem len_c6 (m : Nat) :
    (1 :: 0 :: 0 :: (List.replicate m (0 : Byte) ++ [2, 0, 0, 0])).length = m + 7 := by
  simp only [List.length_cons, List.length_append, List.length_replicate,
    List.length_nil]

/-- The 4-byte prefix is a proper prefix of the 65543-byte encoding. -/
theorem c6_len_fact :
    4 < (NodeInfo.encode ⟨List.replicate 65536 ⟨none, []⟩, [], none⟩).length := by
  rw [encode_c6, len_c6]
  omega

/-- That prefix decodes successfully: the wrapped length field declares an
empty peers body and the first body byte is read as the terminator tag. -/
theorem c6_dec_fact :
    NodeInfo.decode ((NodeInfo.encode ⟨List.replicate 65536 ⟨none, []⟩, [], none⟩).take 4)
      = .ok ⟨[], [], none⟩ := by
  rw [encode_c6, take4_c6 65536 (by omega) [2, 0, 0, 0]]
  decide

/-- Counterexample to C6 as stated: for the NodeInfo holding 65536 empty
peers, the u16 length field of the peers part wraps to 0, and the 4-byte
prefix of the encoding decodes successfully to the empty NodeInfo instead
of failing. -/
theorem claim_C6_counterexample :
    4 < (NodeInfo.encode ⟨List.replicate 65536 ⟨none, []⟩, [], none⟩).length ∧
    NodeInfo.decode ((NodeInfo.encode ⟨List.replicate 65536 ⟨none, []⟩, [], none⟩).take 4)
      = .ok ⟨[], [], none⟩ :=
  ⟨c6_len_fact, c6_dec_fact⟩

/-- Witness for C6 (amended) at the empty NodeInfo and cut 5: the 5-byte
prefix of its 7-byte encoding fails with the public truncation error. -/
theorem claim_C6_witness :
    4 < 65535 ∧ (5 : Nat) < (NodeInfo.encode ⟨[], [], none⟩).length ∧
    NodeInfo.decode ((NodeInfo.encode ⟨[], [], none⟩).take 5)
      = .error (.Message "Input data too short") :=
  ⟨by decide, by decide,
    claim_C6 ⟨[], [], none⟩ (by decide) (by decide) (by decide) 5 (by decide) (by decide)⟩
